import Mathlib

/-!
# go-githubv4: error enhancement and scalar codecs

A shallow embedding of `error.go`, `scalar.go` and `client.go` of the package
`githubv4`,
with the properties of its specification stated and proved over it.

Modelling conventions.

* A Go `string` and a Go `[]byte` are both finite byte sequences; the
  conversions `string(b)` and `[]byte(s)` copy the bytes, so both types are
  `List UInt8` and both conversions are the identity.
* A Go map is `Option (AList ...)`: `none` is the nil map, `some m` a map
  with pairwise distinct keys. Maps are compared through lookups; the order
  of the entries of the association list carries no meaning.
* A nil slice is `none`, a non-nil slice `some l`.
* A function that mutates a map it received returns the map it leaves behind
  next to its result.
* `json.Unmarshal` belongs to the Go standard library. The functions that
  call it take it as a parameter (`Unmarshal`), so every theorem quantified
  over that parameter holds for the real decoder; `jsonUnmarshalString` and
  `jsonUnmarshalMap` are concrete decoders, used to evaluate the functions on concrete bags.
-/

set_option autoImplicit false
set_option linter.dupNamespace false

namespace githubv4

/-! ## Go values -/

/-- Go `string`: an immutable sequence of bytes. -/
abbrev GoString := List UInt8

/-- Go `[]byte`. -/
abbrev Bytes := List UInt8

/-- The type `json.RawMessage`, a `[]byte` holding still-encoded JSON. -/
abbrev RawMessage := List UInt8

/-- A Go string literal: the UTF-8 bytes of its characters. -/
def lit (s : String) : GoString := s.toList.flatMap String.utf8EncodeChar

/-- Go `map[string]V`; `none` is the nil map. -/
abbrev GoMap (V : Type) := Option (AList (fun _ : GoString => V))

namespace GoMap

variable {V : Type}

/-- The comma-ok lookup `v, ok := m[key]`; `none` stands for `ok == false`.
A nil map has no entries. -/
def get (m : GoMap V) (key : GoString) : Option V :=
  match m with
  | none => none
  | some a => a.lookup key

/-- The builtin `delete(m, key)`; a no-op on a nil map and on a missing key. -/
def delete (m : GoMap V) (key : GoString) : GoMap V :=
  match m with
  | none => none
  | some a => some (a.erase key)

/-- The builtin `len(m)`; zero for the nil map. -/
def len (m : GoMap V) : Nat :=
  match m with
  | none => 0
  | some a => a.entries.length

/-- The keys of the map, in no meaningful order. -/
def keys (m : GoMap V) : List GoString :=
  match m with
  | none => []
  | some a => a.keys

/-- A map literal `map[string]V{k1: v1, ...}` (a later duplicate key is dropped). -/
def ofList (l : List (GoString × V)) : GoMap V :=
  some (l.foldr (fun kv a => AList.insert kv.1 kv.2 a) ∅)

end GoMap

/-- Go `any` as produced by `encoding/json`: nil, bool, float64, string,
`[]any` or `map[string]any`. A float64 is kept as the JSON numeral that
denotes it, and a nested map as the list of its entries (distinct keys). -/
inductive AnyValue where
  | null : AnyValue
  | bool (b : Bool) : AnyValue
  | number (numeral : Bytes) : AnyValue
  | string (s : GoString) : AnyValue
  | array (elems : List AnyValue) : AnyValue
  | object (entries : List (GoString × AnyValue)) : AnyValue

/-- The type `map[string]any` of the field `Extensions`. -/
abbrev Extensions := GoMap AnyValue

/-- The signature of `json.Unmarshal(data, &v)` for a target of type `T`
whose initial value is the zero value: `none` is a non-nil error, `some v`
the value stored in the target. -/
abbrev Unmarshal (T : Type) := RawMessage → Option T

/-! ## A concrete JSON decoder

`parseValue` reads one JSON value (RFC 8259) off the front of a byte string.
It is the instance of `Unmarshal` on which the functions of `error.go` are
evaluated at concrete bags. Floating point is left out: a numeral is kept
as written. Bytes of a string are copied as they are; escapes are decoded. -/

namespace JSON

/-- JSON insignificant whitespace: space, tab, line feed, carriage return. -/
def isSpace (c : UInt8) : Bool := c = 32 || c = 9 || c = 10 || c = 13

/-- Drops leading whitespace. -/
def skipSpace : Bytes → Bytes
  | [] => []
  | c :: cs => if isSpace c then skipSpace cs else c :: cs

/-- An ASCII decimal digit. -/
def isDigit (c : UInt8) : Bool := 48 ≤ c.toNat && c.toNat ≤ 57

/-- Splits off the longest run of leading digits. -/
def takeDigits : Bytes → Bytes × Bytes
  | [] => ([], [])
  | c :: cs =>
    if isDigit c then ((takeDigits cs).1.cons c, (takeDigits cs).2) else ([], c :: cs)

/-- The integer part of a numeral: a single `0`, or a non-zero digit followed
by digits. -/
def scanInt (s : Bytes) : Option (Bytes × Bytes) :=
  match s with
  | [] => none
  | c :: cs =>
    if c = 48 then some ([c], cs)
    else if isDigit c then some (c :: (takeDigits cs).1, (takeDigits cs).2)
    else none

/-- An optional fraction: `.` followed by at least one digit. -/
def scanFrac (s : Bytes) : Option (Bytes × Bytes) :=
  match s with
  | c :: cs =>
    if c = 46 then
      (if (takeDigits cs).1 = [] then none else some (c :: (takeDigits cs).1, (takeDigits cs).2))
    else some ([], s)
  | [] => some ([], s)

/-- An optional exponent: `e` or `E`, an optional sign, at least one digit. -/
def scanExp (s : Bytes) : Option (Bytes × Bytes) :=
  match s with
  | c :: cs =>
    if c = 101 || c = 69 then
      match cs with
      | d :: ds =>
        if d = 43 || d = 45 then
          (if (takeDigits ds).1 = [] then none
           else some (c :: d :: (takeDigits ds).1, (takeDigits ds).2))
        else
          (if (takeDigits cs).1 = [] then none
           else some (c :: (takeDigits cs).1, (takeDigits cs).2))
      | [] => none
    else some ([], s)
  | [] => some ([], s)

/-- A JSON numeral: optional minus, integer part, optional fraction, optional
exponent. Returns the numeral and the rest of the input. -/
def scanNumber (s : Bytes) : Option (Bytes × Bytes) :=
  let signed : Bytes × Bytes :=
    match s with
    | c :: cs => if c = 45 then ([c], cs) else ([], s)
    | [] => ([], s)
  match scanInt signed.2 with
  | none => none
  | some (i, r1) =>
    match scanFrac r1 with
    | none => none
    | some (f, r2) =>
      match scanExp r2 with
      | none => none
      | some (e, r3) => some (signed.1 ++ i ++ f ++ e, r3)

/-- The value of a hexadecimal digit. -/
def hexVal (c : UInt8) : Option Nat :=
  if 48 ≤ c.toNat && c.toNat ≤ 57 then some (c.toNat - 48)
  else if 97 ≤ c.toNat && c.toNat ≤ 102 then some (c.toNat - 87)
  else if 65 ≤ c.toNat && c.toNat ≤ 70 then some (c.toNat - 55)
  else none

/-- Four hexadecimal digits as a number. -/
def hex4 (a b c d : UInt8) : Option Nat :=
  match hexVal a, hexVal b, hexVal c, hexVal d with
  | some x, some y, some z, some w => some (((x * 16 + y) * 16 + z) * 16 + w)
  | _, _, _, _ => none

/-- The UTF-8 bytes of a code point; U+FFFD for a value that is no scalar. -/
def encodeRune (r : Nat) : Bytes :=
  if r.isValidChar then String.utf8EncodeChar (Char.ofNat r)
  else String.utf8EncodeChar (Char.ofNat 65533)

/-- The bytes a single-character escape stands for (the byte after the
backslash is given). -/
def escapeOf (e : UInt8) : Option UInt8 :=
  if e = 34 then some 34
  else if e = 92 then some 92
  else if e = 47 then some 47
  else if e = 98 then some 8
  else if e = 102 then some 12
  else if e = 110 then some 10
  else if e = 114 then some 13
  else if e = 116 then some 9
  else none

/-- A low surrogate written as a `\u` escape at the front of the input: its
value and the input after it. -/
def lowSurrogate (s : Bytes) : Option (Nat × Bytes) :=
  match s with
  | b :: u :: x :: y :: z :: w :: rest =>
    if b = 92 && u = 117 then
      match hex4 x y z w with
      | some r => if 56320 ≤ r && r < 57344 then some (r, rest) else none
      | none => none
    else none
  | _ => none

/-- The rune a `\u` escape with value `r` stands for, given the input after
its four digits: a surrogate pair is combined, a lone surrogate becomes
U+FFFD. Returns the rune and the input after the escape. -/
def runeOf (r : Nat) (rest : Bytes) : Nat × Bytes :=
  if 55296 ≤ r && r < 56320 then
    match lowSurrogate rest with
    | some (r2, rest2) => (65536 + (r - 55296) * 1024 + (r2 - 56320), rest2)
    | none => (65533, rest)
  else if 56320 ≤ r && r < 57344 then (65533, rest)
  else (r, rest)

/-- The body of a string, after the opening quote: the decoded bytes and the
input after the closing quote. A control character, an unknown escape and a
missing closing quote are errors. -/
def scanString : Nat → Bytes → GoString → Option (GoString × Bytes)
  | 0, _, _ => none
  | fuel + 1, s, acc =>
    match s with
    | [] => none
    | c :: cs =>
      if c = 34 then some (acc, cs)
      else if c = 92 then
        match cs with
        | [] => none
        | e :: es =>
          if e = 117 then
            match es with
            | x :: y :: z :: w :: rest =>
              match hex4 x y z w with
              | some r => scanString fuel (runeOf r rest).2 (acc ++ encodeRune (runeOf r rest).1)
              | none => none
            | _ => none
          else
            match escapeOf e with
            | some b => scanString fuel es (acc ++ [b])
            | none => none
      else if c.toNat < 32 then none
      else scanString fuel cs (acc ++ [c])

/-- Stores a member in the entries of an object; a repeated key keeps its
place and takes the later value. -/
def setEntry (k : GoString) (v : AnyValue) :
    List (GoString × AnyValue) → List (GoString × AnyValue)
  | [] => [(k, v)]
  | (k0, v0) :: rest => if k0 = k then (k, v) :: rest else (k0, v0) :: setEntry k v rest

mutual

/-- One JSON value off the front of the input, leading whitespace skipped. -/
def parseValue : Nat → Bytes → Option (AnyValue × Bytes)
  | 0, _ => none
  | fuel + 1, s =>
    match skipSpace s with
    | [] => none
    | c :: cs =>
      if c = 123 then
        match skipSpace cs with
        | d :: ds => if d = 125 then some (AnyValue.object [], ds) else parseMembers fuel (d :: ds) []
        | [] => none
      else if c = 91 then
        match skipSpace cs with
        | d :: ds => if d = 93 then some (AnyValue.array [], ds) else parseElems fuel (d :: ds) []
        | [] => none
      else if c = 34 then
        match scanString (cs.length + 1) cs [] with
        | some (str, rest) => some (AnyValue.string str, rest)
        | none => none
      else if (c :: cs).take 4 = lit "null" then some (AnyValue.null, (c :: cs).drop 4)
      else if (c :: cs).take 4 = lit "true" then some (AnyValue.bool true, (c :: cs).drop 4)
      else if (c :: cs).take 5 = lit "false" then some (AnyValue.bool false, (c :: cs).drop 5)
      else
        match scanNumber (c :: cs) with
        | some (n, rest) => some (AnyValue.number n, rest)
        | none => none

/-- The members of a non-empty object, up to and including the closing brace. -/
def parseMembers : Nat → Bytes → List (GoString × AnyValue) → Option (AnyValue × Bytes)
  | 0, _, _ => none
  | fuel + 1, s, acc =>
    match skipSpace s with
    | q :: qs =>
      if q = 34 then
        match scanString (qs.length + 1) qs [] with
        | none => none
        | some (key, r1) =>
          match skipSpace r1 with
          | colon :: r2 =>
            if colon = 58 then
              match parseValue fuel r2 with
              | none => none
              | some (v, r3) =>
                match skipSpace r3 with
                | sep :: r4 =>
                  if sep = 44 then parseMembers fuel r4 (setEntry key v acc)
                  else if sep = 125 then some (AnyValue.object (setEntry key v acc), r4)
                  else none
                | [] => none
            else none
          | [] => none
      else none
    | [] => none

/-- The elements of a non-empty array, up to and including the closing bracket. -/
def parseElems : Nat → Bytes → List AnyValue → Option (AnyValue × Bytes)
  | 0, _, _ => none
  | fuel + 1, s, acc =>
    match parseValue fuel s with
    | none => none
    | some (v, r1) =>
      match skipSpace r1 with
      | sep :: r2 =>
        if sep = 44 then parseElems fuel r2 (acc ++ [v])
        else if sep = 93 then some (AnyValue.array (acc ++ [v]), r2)
        else none
      | [] => none

end

/-- A whole JSON document: one value, with nothing but whitespace after it.
The fuel exceeds the number of nested calls any input of that length needs. -/
def parseDocument (data : Bytes) : Option AnyValue :=
  match parseValue (data.length + 1) data with
  | some (v, rest) => if skipSpace rest = [] then some v else none
  | none => none

/-- The map a list of object entries denotes. -/
def toMap (entries : List (GoString × AnyValue)) : GoMap AnyValue :=
  some (entries.foldl (fun a kv => AList.insert kv.1 kv.2 a) ∅)

end JSON

/-- The call `json.Unmarshal(data, &v)` for `v` a `string` holding "": a JSON
string is stored, `null` leaves the target as it is, every other value and
every malformed document is an error. -/
def jsonUnmarshalString : Unmarshal GoString := fun data =>
  match JSON.parseDocument data with
  | some (AnyValue.string s) => some s
  | some AnyValue.null => some []
  | _ => none

/-- The call `json.Unmarshal(data, &v)` for `v` a nil `map[string]any`: a JSON
object is stored as a fresh map, `null` stores the nil map, every other value
and every malformed document is an error. -/
def jsonUnmarshalMap : Unmarshal Extensions := fun data =>
  match JSON.parseDocument data with
  | some (AnyValue.object entries) => some (JSON.toMap entries)
  | some AnyValue.null => some none
  | _ => none

/-! ## error.go -/

/-- The generic `tryGet[T any](raw, key)`: the returned value, and the map
`raw` as the call leaves it. `default` is the zero value of `T`. -/
def tryGet {T : Type} [Inhabited T] (unmarshal : Unmarshal T)
    (raw : GoMap RawMessage) (key : GoString) : T × GoMap RawMessage :=
  let valueZero : T := default
  match raw.get key with
  | none => (valueZero, raw)
  | some valueJSON =>
    match unmarshal valueJSON with
    | none => (valueZero, raw)
    | some valueParsed => (valueParsed, raw.delete key)

/-- The struct `graphql.ErrorItem` of the wrapped engine, with the two fields
this package reads. -/
structure GraphqlErrorItem where
  Message : GoString
  Raw : GoMap RawMessage

/-- The struct `ErrorItem`. The field `Type` is spelled `Type_`, `Type` being
reserved in Lean. -/
structure ErrorItem where
  Message : GoString
  Extensions : Extensions
  Raw : GoMap RawMessage
  Type_ : GoString

/-- The two instantiations of `json.Unmarshal` that `enhanceErrorItem` uses. -/
structure Json where
  intoMap : Unmarshal Extensions
  intoString : Unmarshal GoString

/-- The function `enhanceErrorItem`. The fields of the composite literal are
evaluated in source order: the "extensions" extraction, then the "type"
extraction on the map the first one left, and `Raw` is that same map after
both. -/
def enhanceErrorItem (json : Json) (base : GraphqlErrorItem) : ErrorItem :=
  let ext := tryGet json.intoMap base.Raw (lit "extensions")
  let typ := tryGet json.intoString ext.2 (lit "type")
  { Extensions := ext.1
    Message := base.Message
    Type_ := typ.1
    Raw := typ.2 }

/-- The source item as a call of `enhanceErrorItem` leaves it: `base.Raw` and
the `Raw` of the returned item are one and the same map, mutated in place by
the two `tryGet` calls. -/
def sourceAfterEnhance (json : Json) (base : GraphqlErrorItem) : GraphqlErrorItem :=
  { base with Raw := (enhanceErrorItem json base).Raw }

mutual

/-- A value of the Go interface type `error`, by dynamic type: the nil
interface, a pointer `*graphql.Error`, a pointer `*Error`, or a value of any
other type (told apart by `id`). A pointer is `none` when nil. -/
inductive GoError where
  | nil : GoError
  | graphqlError (p : Option GraphqlError) : GoError
  | enhancedError (p : Option Error) : GoError
  | other (id : Nat) : GoError

/-- The struct `graphql.Error` of the wrapped engine. -/
inductive GraphqlError where
  | mk (Err : GoError) (Message : GoString) (Errors : Option (List GraphqlErrorItem)) :
      GraphqlError

/-- The struct `Error`. -/
inductive Error where
  | mk (Err : GoError) (Errors : Option (List ErrorItem)) (Message : GoString) : Error

end

/-- The field `Err` of `graphql.Error`. -/
def GraphqlError.Err : GraphqlError → GoError
  | .mk err _ _ => err

/-- The field `Message` of `graphql.Error`. -/
def GraphqlError.Message : GraphqlError → GoString
  | .mk _ message _ => message

/-- The field `Errors` of `graphql.Error`. -/
def GraphqlError.Errors : GraphqlError → Option (List GraphqlErrorItem)
  | .mk _ _ errors => errors

/-- The field `Err` of `Error`. -/
def Error.Err : Error → GoError
  | .mk err _ _ => err

/-- The field `Errors` of `Error`. -/
def Error.Errors : Error → Option (List ErrorItem)
  | .mk _ errors _ => errors

/-- The field `Message` of `Error`. -/
def Error.Message : Error → GoString
  | .mk _ _ message => message

/-- The method `(e *Error) Unwrap()`; `none` is the panic of reading a field
through a nil receiver. -/
def Error.Unwrap (e : Option Error) : Option GoError :=
  match e with
  | none => none
  | some e => some e.Err

/-- The method `(e *Error) Error()`; `none` is the panic of reading a field
through a nil receiver. -/
def Error.Error (e : Option githubv4.Error) : Option GoString :=
  match e with
  | none => none
  | some e => some e.Message

/-- The function `enhanceError`; `none` is the panic of reading `base.Err`
through a nil `*graphql.Error`. The loop appends the enhanced items one by
one to the slice made by `make([]ErrorItem, 0, len(base.Errors))`. -/
def enhanceError (json : Json) (err : GoError) : Option GoError :=
  match err with
  | .graphqlError p =>
    match p with
    | none => none
    | some base =>
      let errors : Option (List ErrorItem) :=
        match base.Errors with
        | none => none
        | some items =>
          some (items.foldl (fun enhanced baseItem => enhanced ++ [enhanceErrorItem json baseItem]) [])
      some (.enhancedError (some (Error.mk base.Err errors base.Message)))
  | _ => some err

/-- The decoders of the concrete JSON model. -/
def stdJson : Json :=
  { intoMap := jsonUnmarshalMap
    intoString := jsonUnmarshalString }

/-! ## scalar.go: `BigInt`

`BigInt` wraps a `big.Int` of the Go standard library (package `math/big`),
which the repository sources do not contain. A `big.Int` is an integer of any
magnitude, here an `Int`. -/

namespace big

/-- The byte of the decimal digit `d`. -/
def digitByte (d : Nat) : UInt8 := UInt8.ofNat (48 + d)

/-- The decimal digits of `n`, most significant first, in front of `acc`; the
first argument bounds the number of digits. -/
def itoaDigits : Nat → Nat → Bytes → Bytes
  | 0, _, acc => acc
  | fuel + 1, n, acc =>
    if n < 10 then digitByte n :: acc
    else itoaDigits fuel (n / 10) (digitByte (n % 10) :: acc)

/-- Modelled from the spec: `(*big.Int).Text(10)` belongs to the standard
library `math/big`, absent from the sources. Section 4.1: "base-10 textual
representation, no leading `+`, optional leading `-`". As in the library, zero
is "0", and any other value is its decimal digits (`x.natAbs` of them suffice
as a bound), preceded by `-` when negative. -/
def Text10 (x : Int) : GoString :=
  if x.natAbs = 0 then lit "0"
  else (if x < 0 then [45] else []) ++ itoaDigits x.natAbs x.natAbs []

/-- The sign scanner of `math/big`: reads one byte, which is consumed when it
is `-` (negative) or `+`, and put back otherwise; `none` at the end of input. -/
def scanSign (r : Bytes) : Option (Bool × Bytes) :=
  match r with
  | [] => none
  | ch :: rest =>
    if ch = 45 then some (true, rest)
    else if ch = 43 then some (false, rest)
    else some (false, ch :: rest)

/-- The digit value `math/big` gives a byte: 0 to 9 for a digit, 10 to 35 for
a letter of either case, and 63 (above every base) for any other byte. -/
def digitVal (ch : UInt8) : Nat :=
  if 48 ≤ ch.toNat ∧ ch.toNat ≤ 57 then ch.toNat - 48
  else if 97 ≤ ch.toNat ∧ ch.toNat ≤ 122 then ch.toNat - 97 + 10
  else if 65 ≤ ch.toNat ∧ ch.toNat ≤ 90 then ch.toNat - 65 + 10
  else 63

/-- The mantissa scanner of `math/big` for base 10: consumes bytes while their
digit value is below 10, accumulating the value `z` and the number `count` of
digits; returns both and the input that is left. -/
def natScan : Bytes → Nat → Nat → Nat × Nat × Bytes
  | [], z, count => (z, count, [])
  | ch :: rest, z, count =>
    if 10 ≤ digitVal ch then (z, count, ch :: rest)
    else natScan rest (z * 10 + digitVal ch) (count + 1)

/-- The integer scanner of `math/big` for base 10: a sign, then a mantissa
with at least one digit; zero has no sign. -/
def intScan (r : Bytes) : Option (Int × Bytes) :=
  match scanSign r with
  | none => none
  | some (neg, r1) =>
    if (natScan r1 0 0).2.1 = 0 then none
    else
      some (if 0 < (natScan r1 0 0).1 ∧ neg = true then -((natScan r1 0 0).1 : Int)
            else ((natScan r1 0 0).1 : Int),
        (natScan r1 0 0).2.2)

/-- Modelled from the spec: `(*big.Int).SetString(s, 10)` belongs to the
standard library `math/big`, absent from the sources. Section 4.1: "decode
accepts an optional leading `+` and normalizes it away; decode fails with a
ParseError if the text is not a valid base-10 integer". As in the library, the
text is scanned as a sign and a mantissa, and the call succeeds only when the
scan consumed the entire text; `none` is `ok == false`. -/
def SetString (s : GoString) : Option Int :=
  match intScan s with
  | none => none
  | some (z, rest) => if rest = [] then some z else none

end big

/-- The struct `BigInt`. -/
structure BigInt where
  N : Int

/-- The error `(*BigInt).UnmarshalText` builds with `fmt.Errorf`, identified by
the text it reports. -/
structure ParseError where
  text : GoString

/-- The method `BigInt.MarshalText`: the bytes and the (nil) error. -/
def BigInt.MarshalText (bigInt : BigInt) : Bytes × GoError :=
  let s := big.Text10 bigInt.N
  (s, GoError.nil)

/-- The method `(*BigInt).UnmarshalText`: `Except.ok` holds the receiver after a
call that returned nil, `Except.error` the error returned otherwise (the
receiver is then unspecified). -/
def BigInt.UnmarshalText (_bigInt : BigInt) (b : Bytes) : Except ParseError BigInt :=
  let s : GoString := b
  match big.SetString s with
  | none => Except.error { text := s }
  | some n => Except.ok { N := n }

/-- A valid base-10 integer in the words of the specification: an optional
single leading `+` or `-`, followed by one or more decimal digits. -/
def isBase10Numeral (s : Bytes) : Bool :=
  match s with
  | [] => false
  | c :: cs =>
    if c = 43 || c = 45 then !cs.isEmpty && cs.all (fun d => 48 ≤ d.toNat && d.toNat ≤ 57)
    else (c :: cs).all (fun d => 48 ≤ d.toNat && d.toNat ≤ 57)

/-- The number a string of decimal digits denotes. -/
def decimalValue (ds : Bytes) : Nat :=
  ds.foldl (fun z d => z * 10 + (d.toNat - 48)) 0

/-- A string of one or more decimal digits. -/
def isDigitString (ds : Bytes) : Bool :=
  !ds.isEmpty && ds.all (fun d => 48 ≤ d.toNat && d.toNat ≤ 57)

/-- The integer a base-10 numeral denotes: the value of its digits, negated
after a leading `-`; a leading `+` changes nothing. -/
def numeralValue (s : Bytes) : Int :=
  match s with
  | [] => 0
  | c :: cs =>
    if c = 45 then -(decimalValue cs : Int)
    else if c = 43 then (decimalValue cs : Int)
    else (decimalValue (c :: cs) : Int)

/-! ## scalar.go: the identity-passthrough scalars

Each of these structs holds a Go string `S`. `MarshalText` returns the pair of
`[]byte(x.S)` and a nil error; `UnmarshalText` assigns `string(b)` to `S` and
returns nil: the receiver after the call and the error are returned. -/

/-- The struct `Base64String`. -/
structure Base64String where
  S : GoString

/-- The method `Base64String.MarshalText`. -/
def Base64String.MarshalText (base64String : Base64String) : Bytes × GoError :=
  (base64String.S, GoError.nil)

/-- The method `(*Base64String).UnmarshalText`. -/
def Base64String.UnmarshalText (base64String : Base64String) (b : Bytes) : Base64String × GoError :=
  ({ base64String with S := b }, GoError.nil)

/-- The struct `Date`. -/
structure Date where
  S : GoString

/-- The method `Date.MarshalText`. -/
def Date.MarshalText (d : Date) : Bytes × GoError :=
  (d.S, GoError.nil)

/-- The method `(*Date).UnmarshalText`. -/
def Date.UnmarshalText (d : Date) (b : Bytes) : Date × GoError :=
  ({ d with S := b }, GoError.nil)

/-- The struct `GitObjectID`. -/
structure GitObjectID where
  S : GoString

/-- The method `GitObjectID.MarshalText`. -/
def GitObjectID.MarshalText (g : GitObjectID) : Bytes × GoError :=
  (g.S, GoError.nil)

/-- The method `(*GitObjectID).UnmarshalText`. -/
def GitObjectID.UnmarshalText (g : GitObjectID) (b : Bytes) : GitObjectID × GoError :=
  ({ g with S := b }, GoError.nil)

/-- The struct `GitTimestamp`. -/
structure GitTimestamp where
  S : GoString

/-- The method `GitTimestamp.MarshalText`. -/
def GitTimestamp.MarshalText (g : GitTimestamp) : Bytes × GoError :=
  (g.S, GoError.nil)

/-- The method `(*GitTimestamp).UnmarshalText`. -/
def GitTimestamp.UnmarshalText (g : GitTimestamp) (b : Bytes) : GitTimestamp × GoError :=
  ({ g with S := b }, GoError.nil)

/-- The struct `GitSSHRemote`. -/
structure GitSSHRemote where
  S : GoString

/-- The method `GitSSHRemote.MarshalText`. -/
def GitSSHRemote.MarshalText (g : GitSSHRemote) : Bytes × GoError :=
  (g.S, GoError.nil)

/-- The method `(*GitSSHRemote).UnmarshalText`. -/
def GitSSHRemote.UnmarshalText (g : GitSSHRemote) (b : Bytes) : GitSSHRemote × GoError :=
  ({ g with S := b }, GoError.nil)

/-- The struct `HTML`. -/
structure HTML where
  S : GoString

/-- The method `HTML.MarshalText`. -/
def HTML.MarshalText (h : HTML) : Bytes × GoError :=
  (h.S, GoError.nil)

/-- The method `(*HTML).UnmarshalText`. -/
def HTML.UnmarshalText (h : HTML) (b : Bytes) : HTML × GoError :=
  ({ h with S := b }, GoError.nil)

/-- The struct `URI`. -/
structure URI where
  S : GoString

/-- The method `URI.MarshalText`. -/
def URI.MarshalText (u : URI) : Bytes × GoError :=
  (u.S, GoError.nil)

/-- The method `(*URI).UnmarshalText`. -/
def URI.UnmarshalText (u : URI) (b : Bytes) : URI × GoError :=
  ({ u with S := b }, GoError.nil)

/-! ## scalar.go: `DateTime` and `PreciseDateTime`

Both structs embed a `time.Time` and declare no method of their own, so their
`MarshalText` and `UnmarshalText` are the methods of `time.Time`, promoted
through the embedding (the comments in `scalar.go` say so for both). Package
`time` belongs to the Go standard library, which the repository sources do not
contain; it is modelled here as of Go 1.20 and later. -/

namespace time

/-- Modelled from the spec: the type `time.Time` of the standard library,
absent from the sources; section 3: "for timestamps, an embedded calendar-time
value". A `Time` is given by what its accessors `Date`, `Clock`, `Nanosecond`
and `Zone` return: the calendar date and the clock reading in its location,
the nanosecond within the second, and the offset of its zone in seconds east
of UTC. -/
structure Time where
  year : Int
  month : Nat
  day : Nat
  hour : Nat
  minute : Nat
  second : Nat
  nanosecond : Nat
  offset : Int
  deriving DecidableEq

/-- The leap years of the proleptic Gregorian calendar. -/
def isLeap (year : Int) : Bool :=
  year % 4 = 0 && (year % 100 ≠ 0 || year % 400 = 0)

/-- The number of days of a month. -/
def daysIn (month : Nat) (year : Int) : Nat :=
  if month = 2 then (if isLeap year then 29 else 28)
  else if month = 4 ∨ month = 6 ∨ month = 9 ∨ month = 11 then 30
  else 31

/-- The values a `Time` can hold: a date of the calendar, a clock reading of
the day, and a nanosecond below one second. -/
def Time.valid (t : Time) : Bool :=
  1 ≤ t.month && t.month ≤ 12 && 1 ≤ t.day && t.day ≤ daysIn t.month t.year &&
    t.hour < 24 && t.minute < 60 && t.second < 60 && t.nanosecond < 1000000000

/-- The days of a common year before the first of a month. -/
def daysBefore (month : Nat) : Nat :=
  [0, 31, 59, 90, 120, 151, 181, 212, 243, 273, 304, 334].getD (month - 1) 0

/-- The method `Time.Unix`: the seconds from 1970-01-01T00:00:00Z to the
instant, the clock reading taken back by the zone offset. -/
def Time.Unix (t : Time) : Int :=
  (365 * (t.year - 1) + (t.year - 1) / 4 - (t.year - 1) / 100 + (t.year - 1) / 400
      + (daysBefore t.month : Int) + (if isLeap t.year && 2 < t.month then 1 else 0)
      + ((t.day : Int) - 1)) * 86400
    + (t.hour : Int) * 3600 + (t.minute : Int) * 60 + (t.second : Int)
    - t.offset - 62135596800

/-- The method `Time.Equal`: the two values denote the same instant, to the
nanosecond, whatever their zones. -/
def Time.Equal (t u : Time) : Bool :=
  t.Unix = u.Unix && t.nanosecond = u.nanosecond

/-- The last `width` decimal digits of `u`, most significant first. -/
def fixedDigits : Nat → Nat → Bytes
  | 0, _ => []
  | width + 1, u => fixedDigits width (u / 10) ++ [big.digitByte (u % 10)]

/-- The helper `appendInt` of package `time`: the decimal form of `x`, after a
`-` when negative, padded with leading zeros to `width` digits. -/
def appendInt (b : Bytes) (x : Int) (width : Nat) : Bytes :=
  (if x < 0 then b ++ [45] else b) ++
    (if x.natAbs < 10 ^ width then fixedDigits width x.natAbs
     else big.itoaDigits x.natAbs x.natAbs [])

/-- The helper `appendNano` of package `time` for the layout `.999999999`:
nothing for zero; otherwise a dot and nine digits, after which the trailing
zeros of the buffer are cut off, and then a trailing dot. -/
def appendNano (b : Bytes) (nanosec : Nat) : Bytes :=
  if nanosec = 0 then b
  else
    if ((appendInt (b ++ [46]) nanosec 9).rdropWhile (fun c => c = 48)).getLast? = some 46 then
      ((appendInt (b ++ [46]) nanosec 9).rdropWhile (fun c => c = 48)).dropLast
    else (appendInt (b ++ [46]) nanosec 9).rdropWhile (fun c => c = 48)

/-- The zone of RFC 3339 as package `time` writes it: `Z` for offset zero,
otherwise a sign, the hours and the minutes of the offset, its seconds being
dropped (the division truncates towards zero). -/
def appendZone (b : Bytes) (offset : Int) : Bytes :=
  if offset = 0 then b ++ [90]
  else
    appendInt
      (appendInt (if Int.tdiv offset 60 < 0 then b ++ [45] else b ++ [43])
        (((Int.tdiv offset 60).natAbs / 60 : Nat) : Int) 2 ++ [58])
      (((Int.tdiv offset 60).natAbs % 60 : Nat) : Int) 2

/-- The method `appendFormatRFC3339` of package `time` with nanoseconds: year,
month and day separated by `-`, a `T`, the clock reading separated by `:`, the
fraction of `appendNano`, and the zone. -/
def appendFormatRFC3339 (t : Time) (b : Bytes) : Bytes :=
  appendZone
    (appendNano
      (appendInt
        (appendInt
          (appendInt
            (appendInt
              (appendInt (appendInt b t.year 4 ++ [45]) (t.month : Int) 2 ++ [45])
              (t.day : Int) 2 ++ [84])
            (t.hour : Int) 2 ++ [58])
          (t.minute : Int) 2 ++ [58])
        (t.second : Int) 2)
      t.nanosecond)
    t.offset

/-- The two-digit number written at the front of `b`, in byte arithmetic. -/
def num2 (b : Bytes) : UInt8 :=
  10 * (b.getD 0 0 - 48) + (b.getD 1 0 - 48)

/-- The method `appendStrictRFC3339` of package `time` on an empty buffer: the
text of `appendFormatRFC3339`, refused when the year is not four digits wide
(the byte after them is not `-`) or when the zone hour is not a two-digit
number below 24. -/
def appendStrictRFC3339 (t : Time) : Except GoString Bytes :=
  if (appendFormatRFC3339 t []).getD 4 0 ≠ 45 then
    Except.error (lit "year outside of range [0,9999]")
  else if (appendFormatRFC3339 t []).getLast? ≠ some 90 ∧
      ((48 ≤ ((appendFormatRFC3339 t []).getD ((appendFormatRFC3339 t []).length - 6) 0).toNat ∧
          ((appendFormatRFC3339 t []).getD ((appendFormatRFC3339 t []).length - 6) 0).toNat ≤ 57) ∨
        24 ≤ num2 ((appendFormatRFC3339 t []).drop ((appendFormatRFC3339 t []).length - 5))) then
    Except.error (lit "timezone hour outside of range [0,23]")
  else Except.ok (appendFormatRFC3339 t [])

/-- Modelled from the spec: `time.Time.MarshalText` belongs to the standard
library, absent from the sources. Section 4.1: "ISO-8601 textual form with `Z`
suffix and however many significant fractional-second digits the underlying
time representation carries (no fixed digit count ...)"; `scalar.go`: "sends
subsecond precision". As in the library, the text is that of
`appendStrictRFC3339`, and its error is reported with the name of the method
in front. -/
def Time.MarshalText (t : Time) : Except GoString Bytes :=
  match appendStrictRFC3339 t with
  | Except.error err => Except.error (lit "Time.MarshalText: " ++ err)
  | Except.ok b => Except.ok b

/-- The slice expression `s[i:j]`. -/
def slice (s : Bytes) (i j : Nat) : Bytes := (s.drop i).take (j - i)

/-- The helper `isDigit(s, i)` of package `time`. -/
def isDigit (s : Bytes) (i : Nat) : Bool :=
  match s.get? i with
  | some c => 48 ≤ c.toNat && c.toNat ≤ 57
  | none => false

/-- The closure `parseUint` of `parseRFC3339`: the digits of `s` as a number
within `min` and `max`; `none` stands for the flag `ok` being cleared. -/
def parseUint (s : Bytes) (min max : Nat) : Option Nat :=
  if s.all (fun c => 48 ≤ c.toNat && c.toNat ≤ 57) then
    (if decimalValue s < min ∨ max < decimalValue s then none else some (decimalValue s))
  else none

/-- The helper `parseNanoseconds` of package `time` on a dot followed by
digits, `nbytes` bytes in all: at most nine digits are read and scaled to
nanoseconds. -/
def parseNanoseconds (value : Bytes) (nbytes : Nat) : Nat :=
  decimalValue (slice value 1 (if 10 < nbytes then 10 else nbytes))
    * 10 ^ (10 - (if 10 < nbytes then 10 else nbytes))

/-- The fractional second of `parseRFC3339`: when the input starts with a dot
and a digit, the nanoseconds of the digits that follow the dot and the input
after them; otherwise zero and the input. -/
def parseFraction (s : Bytes) : Nat × Bytes :=
  if 2 ≤ s.length ∧ s.getD 0 0 = 46 ∧ isDigit s 1 = true then
    (parseNanoseconds s
        (2 + ((s.drop 2).takeWhile (fun c => 48 ≤ c.toNat && c.toNat ≤ 57)).length),
      s.drop (2 + ((s.drop 2).takeWhile (fun c => 48 ≤ c.toNat && c.toNat ≤ 57)).length))
  else (0, s)

/-- The time zone of `parseRFC3339`: `Z`, or a sign, two digits of hours below
24, a colon and two digits of minutes below 60; the offset in seconds. -/
def parseZone (s : Bytes) : Option Int :=
  if s = [90] then some 0
  else if s.length ≠ 6 then none
  else
    match parseUint (slice s 1 3) 0 23, parseUint (slice s 4 6) 0 59 with
    | some hr, some mm =>
      if (s.getD 0 0 = 45 ∨ s.getD 0 0 = 43) ∧ s.getD 3 0 = 58 then
        (if s.getD 0 0 = 45 then some (-(((hr * 60 + mm) * 60 : Nat) : Int))
         else some (((hr * 60 + mm) * 60 : Nat) : Int))
      else none
    | _, _ => none

/-- The function `parseRFC3339` of package `time`: the fields at their fixed
places, each within its range, the separators between them, then the optional
fraction and the zone, with nothing left over. -/
def parseRFC3339 (s : Bytes) : Option Time :=
  if s.length < 19 then none
  else
    match parseUint (slice s 0 4) 0 9999, parseUint (slice s 5 7) 1 12 with
    | some year, some month =>
      match parseUint (slice s 8 10) 1 (daysIn month year), parseUint (slice s 11 13) 0 23,
        parseUint (slice s 14 16) 0 59, parseUint (slice s 17 19) 0 59 with
      | some day, some hour, some minute, some second =>
        if s.getD 4 0 = 45 ∧ s.getD 7 0 = 45 ∧ s.getD 10 0 = 84 ∧ s.getD 13 0 = 58 ∧
            s.getD 16 0 = 58 then
          match parseZone (parseFraction (s.drop 19)).2 with
          | some offset =>
            some
              { year := (year : Int)
                month := month
                day := day
                hour := hour
                minute := minute
                second := second
                nanosecond := (parseFraction (s.drop 19)).1
                offset := offset }
          | none => none
        else none
      | _, _, _, _ => none
    | _, _ => none

/-- Modelled from the spec: `(*time.Time).UnmarshalText` belongs to the
standard library, absent from the sources; section 4.1 delegates decoding "to
a standard date-time parsing facility". As in the library, the text is read by
`parseRFC3339`, and a text that one refuses is handed to the general parser
`time.Parse` with the layout RFC 3339, which is a parameter here. `Except.ok`
holds the receiver after a call that returned nil. -/
def Time.UnmarshalText (parse : Bytes → Except GoError Time) (data : Bytes) :
    Except GoError Time :=
  match parseRFC3339 data with
  | some t => Except.ok t
  | none => parse data

/-- The function `time.Date` with location UTC, for arguments within range. -/
def Date (year : Int) (month day hour minute second nanosecond : Nat) : Time :=
  { year := year
    month := month
    day := day
    hour := hour
    minute := minute
    second := second
    nanosecond := nanosecond
    offset := 0 }

end time

/-- The struct `DateTime`, which embeds a `time.Time`. -/
structure DateTime where
  Time : time.Time

/-- The method `MarshalText` that `DateTime` inherits from `time.Time`. -/
def DateTime.MarshalText (x : DateTime) : Except GoString Bytes :=
  x.Time.MarshalText

/-- The method `UnmarshalText` that `*DateTime` inherits from `*time.Time`. -/
def DateTime.UnmarshalText (parse : Bytes → Except GoError time.Time) (x : DateTime)
    (data : Bytes) : Except GoError DateTime :=
  match time.Time.UnmarshalText parse data with
  | Except.ok t => Except.ok { x with Time := t }
  | Except.error err => Except.error err

/-- The struct `PreciseDateTime`, which embeds a `time.Time`. -/
structure PreciseDateTime where
  Time : time.Time

/-- The method `MarshalText` that `PreciseDateTime` inherits from `time.Time`. -/
def PreciseDateTime.MarshalText (x : PreciseDateTime) : Except GoString Bytes :=
  x.Time.MarshalText

/-- The method `UnmarshalText` that `*PreciseDateTime` inherits from
`*time.Time`. -/
def PreciseDateTime.UnmarshalText (parse : Bytes → Except GoError time.Time)
    (x : PreciseDateTime) (data : Bytes) : Except GoError PreciseDateTime :=
  match time.Time.UnmarshalText parse data with
  | Except.ok t => Except.ok { x with Time := t }
  | Except.error err => Except.error err

/-! ## The texts of the date-time claims -/

namespace time

/-- The text `YYYY-MM-DDTHH:MM:SS` of the date and the clock reading of a time
whose year has at most four digits. -/
def dateTimeText (t : Time) : Bytes :=
  fixedDigits 4 t.year.natAbs ++ [45] ++ fixedDigits 2 t.month ++ [45] ++ fixedDigits 2 t.day
    ++ [84] ++ fixedDigits 2 t.hour ++ [58] ++ fixedDigits 2 t.minute ++ [58]
    ++ fixedDigits 2 t.second

/-- The fraction of a second in the words of the claim: nothing when the
nanosecond part is zero, otherwise `.` followed by the nine nanosecond digits
with the trailing zeros removed. -/
def fractionText (nanosecond : Nat) : Bytes :=
  if nanosecond = 0 then []
  else 46 :: (fixedDigits 9 nanosecond).rdropWhile (fun c => c = 48)

/-- A text of the exact form `YYYY-MM-DDTHH:MM:SSZ`: twenty bytes, digits at
the places of the letters, and the separators `-`, `-`, `T`, `:`, `:`, `Z`. -/
def isSecondPrecisionText (b : Bytes) : Bool :=
  b.length = 20 &&
    ([0, 1, 2, 3, 5, 6, 8, 9, 11, 12, 14, 15, 17, 18].all
      (fun i => 48 ≤ (b.getD i 0).toNat && (b.getD i 0).toNat ≤ 57)) &&
    b.getD 4 0 = 45 && b.getD 7 0 = 45 && b.getD 10 0 = 84 && b.getD 13 0 = 58 &&
    b.getD 16 0 = 58 && b.getD 19 0 = 90

end time

/-! ## Inputs of `scalar_test.go` and further date-time values -/

/-- The value of `Test_DateTime/MarshalText/Case1`. -/
def testDateTime : DateTime :=
  { Time := time.Date 2023 6 1 23 59 59 0 }

/-- The value of `Test_PreciseDateTime/MarshalText/Case1`. -/
def testPreciseDateTime : PreciseDateTime :=
  { Time := time.Date 2023 6 1 23 59 59 123400000 }

/-- A `DateTime` that holds the time of `Test_PreciseDateTime/MarshalText/Case1`,
with its nanoseconds. -/
def subsecondDateTime : DateTime :=
  { Time := time.Date 2023 6 1 23 59 59 123400000 }

/-- A `DateTime` in a zone two hours east of UTC. -/
def eastDateTime : DateTime :=
  { Time := { time.Date 2023 6 1 23 59 59 0 with offset := 7200 } }

/-- A `DateTime` in the year 10000. -/
def farDateTime : DateTime :=
  { Time := time.Date 10000 6 1 23 59 59 0 }

/-- A time in a zone ninety minutes west of UTC. -/
def westTime : time.Time :=
  { time.Date 2023 6 1 0 0 0 123400000 with offset := -5400 }

/-- A time in the zone `time.FixedZone("", 30)`, thirty seconds east of UTC:
midnight there is 2023-05-31T23:59:30Z. -/
def halfMinuteTime : time.Time :=
  { time.Date 2023 6 1 0 0 0 0 with offset := 30 }

/-- A stand-in for the general parser `time.Parse` that refuses every text. -/
def refuseAll : Bytes → Except GoError time.Time :=
  fun _ => Except.error (GoError.other 0)

/-! ## client.go

The execution engine `*graphql.Client` belongs to the wrapped package; its
`Query` and `Mutate` are parameters. `V` is the type of the Go values a
variables mapping holds (`any`), `R` the type of the response
(`*http.Response`), `Ctx` and `M` the types of the context and of the pointer
to the query or mutation struct. An `Input` is a Go value as well, so an
argument of interface type `Input` is `none` when nil and `some v` otherwise. -/

/-- The assignment `m[key] = v`; `none` is the panic of assigning to an entry
of a nil map. -/
def GoMap.set {V : Type} (m : GoMap V) (key : GoString) (v : V) : Option (GoMap V) :=
  match m with
  | none => none
  | some a => some (some (a.insert key v))

/-- The methods of `*graphql.Client` that this package calls. -/
structure GraphqlClient (Ctx M V R : Type) where
  Query : Ctx → M → GoMap V → R × GoError
  Mutate : Ctx → M → GoMap V → R × GoError

/-- The struct `Client`, as `NewClient` and `NewEnterpriseClient` build it:
the field `c` is not nil. -/
structure Client (Ctx M V R : Type) where
  c : GraphqlClient Ctx M V R

/-- The method `(*Client).Query`; `none` is a panic inside `enhanceError`. -/
def Client.Query {Ctx M V R : Type} (json : Json) (c : Client Ctx M V R) (ctx : Ctx) (q : M)
    (variables_ : GoMap V) : Option (R × GoError) :=
  match enhanceError json (c.c.Query ctx q variables_).2 with
  | none => none
  | some err => some ((c.c.Query ctx q variables_).1, err)

/-- The method `(*Client).Mutate` (the parameter `variables` is spelled
`variables_`, `variables` being reserved): when `input` is not nil, a nil
`variables` is replaced by the empty map literal and the entry "input" is assigned; the
engine is called with the resulting map and its error goes through
`enhanceError`. `none` is a panic. -/
def Client.Mutate {Ctx M V R : Type} (json : Json) (c : Client Ctx M V R) (ctx : Ctx) (m : M)
    (input : Option V) (variables_ : GoMap V) : Option (R × GoError) :=
  match
    (match input with
      | some i =>
        GoMap.set (match variables_ with
          | none => some ∅
          | some a => some a) (lit "input") i
      | none => some variables_) with
  | none => none
  | some variables_ =>
    match enhanceError json (c.c.Mutate ctx m variables_).2 with
    | none => none
    | some err => some ((c.c.Mutate ctx m variables_).1, err)

/-- An engine that answers every call with the variables it was handed and a
nil error. -/
def echoEngine (V : Type) : GraphqlClient Unit Unit V (GoMap V) :=
  { Query := fun _ _ variables_ => (variables_, GoError.nil)
    Mutate := fun _ _ variables_ => (variables_, GoError.nil) }

/-! ## Inputs of `error_test.go` -/

/-- The raw "extensions" value of `Test_enhanceErrorItem/Case1`. -/
def testItemRawExtensions : RawMessage :=
  lit "\x7b\"ext1\":\"ext1Val\",\"ext2\":[\"ext2Val\"]\x7d"

/-- The bag of `Test_enhanceErrorItem/Case1`. -/
def testItemRaw : GoMap RawMessage :=
  GoMap.ofList
    [(lit "extensions", testItemRawExtensions),
     (lit "type", lit "\"type123\""),
     (lit "something", lit "123")]

/-- The source item of `Test_enhanceErrorItem/Case1`. -/
def testItem : GraphqlErrorItem :=
  { Message := lit "msg"
    Raw := testItemRaw }

/-- The value of "extensions" expected by `Test_enhanceErrorItem/Case1`. -/
def testItemExtensions : Extensions :=
  JSON.toMap
    [(lit "ext1", AnyValue.string (lit "ext1Val")),
     (lit "ext2", AnyValue.array [AnyValue.string (lit "ext2Val")])]

/-- A source item whose "extensions" and "type" entries both hold the number 3. -/
def undecodableItem : GraphqlErrorItem :=
  { Message := lit "msg"
    Raw := GoMap.ofList [(lit "extensions", lit "3"), (lit "type", lit "3")] }

/-- A source item without a "type" entry. -/
def untypedItem : GraphqlErrorItem :=
  { Message := lit "msg"
    Raw := GoMap.ofList [(lit "extensions", lit "\x7b\x7d"), (lit "something", lit "123")] }

/-- A source item whose "extensions" and "type" entries are both `null`. -/
def nullItem : GraphqlErrorItem :=
  { Message := lit "msg"
    Raw := GoMap.ofList
      [(lit "extensions", lit "null"), (lit "type", lit "null"), (lit "something", lit "123")] }

/-- The source error of `Test_enhanceError/Case2`: a wrapped cause, a
message, no item list. -/
def testError2 : GraphqlError :=
  GraphqlError.mk (GoError.other 1) (lit "msg") none

/-- The source error of `Test_enhanceError/Case3`: one item with a message and
a nil bag. -/
def testError3 : GraphqlError :=
  GraphqlError.mk GoError.nil (lit "msg1") (some [{ Message := lit "msg2", Raw := none }])

/-! ## Theorems: maps and `tryGet` -/

namespace GoMap

variable {V : Type}

theorem get_delete_self (m : GoMap V) (key : GoString) : (m.delete key).get key = none := by
  cases m with
  | none => rfl
  | some a => simp [delete, get]

theorem get_delete_ne (m : GoMap V) {key k : GoString} (h : k ≠ key) :
    (m.delete key).get k = m.get k := by
  cases m with
  | none => rfl
  | some a => simp [delete, get, AList.lookup_erase_ne h]

theorem get_delete_some (m : GoMap V) {key k : GoString} {v : V}
    (h : (m.delete key).get k = some v) : m.get k = some v := by
  by_cases hk : k = key
  · subst hk
    rw [get_delete_self] at h
    cases h
  · rwa [get_delete_ne m hk] at h

theorem delete_comm (m : GoMap V) (k1 k2 : GoString) :
    (m.delete k1).delete k2 = (m.delete k2).delete k1 := by
  cases m with
  | none => rfl
  | some a => simp [delete, AList.erase_erase]

theorem mem_keys_iff (m : GoMap V) (k : GoString) : k ∈ m.keys ↔ m.get k ≠ none := by
  cases m with
  | none => simp [keys, get]
  | some a =>
    simp only [keys, get, ne_eq, AList.lookup_eq_none, not_not]
    exact AList.mem_keys.symm

end GoMap

theorem extensions_ne_type : lit "extensions" ≠ lit "type" := by decide

section TryGet

variable {T : Type} [Inhabited T]

theorem tryGet_missing (unmarshal : Unmarshal T) (raw : GoMap RawMessage) (key : GoString)
    (h : raw.get key = none) : tryGet unmarshal raw key = (default, raw) := by
  simp [tryGet, h]

theorem tryGet_undecodable (unmarshal : Unmarshal T) (raw : GoMap RawMessage)
    (key : GoString) (valueJSON : RawMessage) (hget : raw.get key = some valueJSON)
    (hdec : unmarshal valueJSON = none) : tryGet unmarshal raw key = (default, raw) := by
  simp [tryGet, hget, hdec]

theorem tryGet_decoded (unmarshal : Unmarshal T) (raw : GoMap RawMessage)
    (key : GoString) (valueJSON : RawMessage) (v : T) (hget : raw.get key = some valueJSON)
    (hdec : unmarshal valueJSON = some v) :
    tryGet unmarshal raw key = (v, raw.delete key) := by
  simp [tryGet, hget, hdec]

/-- The map left by `tryGet` is the map it received, or that map with the key
deleted. -/
theorem tryGet_snd_cases (unmarshal : Unmarshal T) (raw : GoMap RawMessage) (key : GoString) :
    (tryGet unmarshal raw key).2 = raw ∨ (tryGet unmarshal raw key).2 = raw.delete key := by
  cases hget : raw.get key with
  | none => exact Or.inl (by rw [tryGet_missing unmarshal raw key hget])
  | some valueJSON =>
    cases hdec : unmarshal valueJSON with
    | none => exact Or.inl (by rw [tryGet_undecodable unmarshal raw key valueJSON hget hdec])
    | some v => exact Or.inr (by rw [tryGet_decoded unmarshal raw key valueJSON v hget hdec])

theorem tryGet_get_ne (unmarshal : Unmarshal T) (raw : GoMap RawMessage) {key k : GoString}
    (h : k ≠ key) : (tryGet unmarshal raw key).2.get k = raw.get k := by
  rcases tryGet_snd_cases unmarshal raw key with h1 | h1
  · rw [h1]
  · rw [h1, GoMap.get_delete_ne raw h]

theorem tryGet_get_some (unmarshal : Unmarshal T) (raw : GoMap RawMessage) {key k : GoString}
    {v : RawMessage} (h : (tryGet unmarshal raw key).2.get k = some v) : raw.get k = some v := by
  rcases tryGet_snd_cases unmarshal raw key with h1 | h1
  · rwa [h1] at h
  · rw [h1] at h
    exact GoMap.get_delete_some raw h

end TryGet

/-! ## Theorems: `enhanceErrorItem` -/

theorem enhanceErrorItem_Raw_get_other (json : Json) (base : GraphqlErrorItem) (k : GoString)
    (h1 : k ≠ lit "extensions") (h2 : k ≠ lit "type") :
    (enhanceErrorItem json base).Raw.get k = base.Raw.get k := by
  simp only [enhanceErrorItem]
  rw [tryGet_get_ne _ _ h2, tryGet_get_ne _ _ h1]

theorem enhanceErrorItem_Raw_get_some (json : Json) (base : GraphqlErrorItem) (k : GoString)
    (v : RawMessage) (h : (enhanceErrorItem json base).Raw.get k = some v) :
    base.Raw.get k = some v := by
  simp only [enhanceErrorItem] at h
  exact tryGet_get_some _ _ (tryGet_get_some _ _ h)

/-- C1: when the bag holds under "extensions" raw JSON that decodes to `E` and
under "type" raw JSON that decodes to `T`, `enhanceErrorItem` returns an item
with `Extensions = E`, `Type = T` and the source message, whose `Raw` holds
neither "extensions" nor "type" and agrees with the source bag on every other
key. -/
theorem enhanceErrorItem_extracts (json : Json) (base : GraphqlErrorItem)
    (rawE rawT : RawMessage) (E : Extensions) (T : GoString)
    (hE : base.Raw.get (lit "extensions") = some rawE) (hdE : json.intoMap rawE = some E)
    (hT : base.Raw.get (lit "type") = some rawT) (hdT : json.intoString rawT = some T) :
    (enhanceErrorItem json base).Extensions = E ∧
    (enhanceErrorItem json base).Type_ = T ∧
    (enhanceErrorItem json base).Message = base.Message ∧
    (enhanceErrorItem json base).Raw.get (lit "extensions") = none ∧
    (enhanceErrorItem json base).Raw.get (lit "type") = none ∧
    ∀ k : GoString, k ≠ lit "extensions" → k ≠ lit "type" →
      (enhanceErrorItem json base).Raw.get k = base.Raw.get k := by
  have h1 := tryGet_decoded json.intoMap base.Raw (lit "extensions") rawE E hE hdE
  have hT' : (base.Raw.delete (lit "extensions")).get (lit "type") = some rawT := by
    rw [GoMap.get_delete_ne base.Raw (Ne.symm extensions_ne_type)]
    exact hT
  have h2 := tryGet_decoded json.intoString (base.Raw.delete (lit "extensions")) (lit "type")
    rawT T hT' hdT
  refine ⟨?_, ?_, rfl, ?_, ?_, ?_⟩
  · simp only [enhanceErrorItem, h1]
  · simp only [enhanceErrorItem, h1, h2]
  · simp only [enhanceErrorItem, h1, h2]
    rw [GoMap.get_delete_ne _ extensions_ne_type, GoMap.get_delete_self]
  · simp only [enhanceErrorItem, h1, h2]
    rw [GoMap.get_delete_self]
  · intro k hk1 hk2
    exact enhanceErrorItem_Raw_get_other json base k hk1 hk2

/-- The test `Test_enhanceErrorItem/Case1` as an instance of C1. -/
theorem enhanceErrorItem_extracts_witness :
    (testItem.Raw.get (lit "extensions") = some testItemRawExtensions ∧
      stdJson.intoMap testItemRawExtensions = some testItemExtensions ∧
      testItem.Raw.get (lit "type") = some (lit "\"type123\"") ∧
      stdJson.intoString (lit "\"type123\"") = some (lit "type123")) ∧
    (enhanceErrorItem stdJson testItem).Extensions = testItemExtensions ∧
    (enhanceErrorItem stdJson testItem).Type_ = lit "type123" ∧
    (enhanceErrorItem stdJson testItem).Message = testItem.Message ∧
    (enhanceErrorItem stdJson testItem).Raw.get (lit "extensions") = none ∧
    (enhanceErrorItem stdJson testItem).Raw.get (lit "type") = none ∧
    ∀ k : GoString, k ≠ lit "extensions" → k ≠ lit "type" →
      (enhanceErrorItem stdJson testItem).Raw.get k = testItem.Raw.get k :=
  ⟨⟨by decide, by rfl, by decide, by decide⟩,
   enhanceErrorItem_extracts stdJson testItem testItemRawExtensions (lit "\"type123\"")
     testItemExtensions (lit "type123") (by decide) (by rfl) (by decide) (by decide)⟩

/-- The residual bag of `Test_enhanceErrorItem/Case1` is `something: 123`. -/
theorem enhanceErrorItem_test_residual :
    (enhanceErrorItem stdJson testItem).Raw = GoMap.ofList [(lit "something", lit "123")] := by
  rfl

/-- C2: a key that is present with raw JSON the decoder rejects makes `tryGet`
return the zero value and leave the bag as it was (same entries, same size);
in `enhanceErrorItem` an undecodable "extensions" gives nil `Extensions`, an
undecodable "type" gives the empty `Type`, and `Raw` still maps the key to the
original raw bytes. -/
theorem undecodable_entry_kept (json : Json) :
    (∀ (raw : GoMap RawMessage) (key : GoString) (valueJSON : RawMessage),
      raw.get key = some valueJSON →
      (json.intoMap valueJSON = none →
        tryGet json.intoMap raw key = (none, raw) ∧
        (tryGet json.intoMap raw key).2.get key = some valueJSON ∧
        (tryGet json.intoMap raw key).2.len = raw.len) ∧
      (json.intoString valueJSON = none →
        tryGet json.intoString raw key = ([], raw) ∧
        (tryGet json.intoString raw key).2.get key = some valueJSON ∧
        (tryGet json.intoString raw key).2.len = raw.len)) ∧
    (∀ (base : GraphqlErrorItem) (rawE : RawMessage),
      base.Raw.get (lit "extensions") = some rawE → json.intoMap rawE = none →
      (enhanceErrorItem json base).Extensions = none ∧
      (enhanceErrorItem json base).Raw.get (lit "extensions") = some rawE) ∧
    (∀ (base : GraphqlErrorItem) (rawT : RawMessage),
      base.Raw.get (lit "type") = some rawT → json.intoString rawT = none →
      (enhanceErrorItem json base).Type_ = [] ∧
      (enhanceErrorItem json base).Raw.get (lit "type") = some rawT) := by
  refine ⟨?_, ?_, ?_⟩
  · intro raw key valueJSON hget
    constructor
    · intro hdec
      have h := tryGet_undecodable json.intoMap raw key valueJSON hget hdec
      rw [h]
      exact ⟨rfl, hget, rfl⟩
    · intro hdec
      have h := tryGet_undecodable json.intoString raw key valueJSON hget hdec
      rw [h]
      exact ⟨rfl, hget, rfl⟩
  · intro base rawE hget hdec
    have h := tryGet_undecodable json.intoMap base.Raw (lit "extensions") rawE hget hdec
    constructor
    · simp only [enhanceErrorItem, h]
      rfl
    · simp only [enhanceErrorItem, h]
      rw [tryGet_get_ne _ _ extensions_ne_type]
      exact hget
  · intro base rawT hget hdec
    have hget' : (tryGet json.intoMap base.Raw (lit "extensions")).2.get (lit "type")
        = some rawT := by
      rw [tryGet_get_ne _ _ (Ne.symm extensions_ne_type)]
      exact hget
    have h := tryGet_undecodable json.intoString _ (lit "type") rawT hget' hdec
    constructor
    · simp only [enhanceErrorItem, h]
      rfl
    · simp only [enhanceErrorItem, h]
      exact hget'

/-- C2 at the bag of `Test_tryGet/Case2` and at an item whose "extensions" and
"type" are both the raw number 3. -/
theorem undecodable_entry_kept_witness :
    (tryGet jsonUnmarshalString (GoMap.ofList [(lit "k", lit "3")]) (lit "k")
        = ([], GoMap.ofList [(lit "k", lit "3")]) ∧
      (tryGet jsonUnmarshalString (GoMap.ofList [(lit "k", lit "3")]) (lit "k")).2.get (lit "k")
        = some (lit "3") ∧
      (tryGet jsonUnmarshalString (GoMap.ofList [(lit "k", lit "3")]) (lit "k")).2.len = 1) ∧
    ((enhanceErrorItem stdJson undecodableItem).Extensions = none ∧
      (enhanceErrorItem stdJson undecodableItem).Raw.get (lit "extensions") = some (lit "3")) ∧
    ((enhanceErrorItem stdJson undecodableItem).Type_ = [] ∧
      (enhanceErrorItem stdJson undecodableItem).Raw.get (lit "type") = some (lit "3")) :=
  ⟨((undecodable_entry_kept stdJson).1 (GoMap.ofList [(lit "k", lit "3")]) (lit "k") (lit "3")
      (by decide)).2 (by decide),
   (undecodable_entry_kept stdJson).2.1 undecodableItem (lit "3") (by decide) (by rfl),
   (undecodable_entry_kept stdJson).2.2 undecodableItem (lit "3") (by decide) (by decide)⟩

/-- C3: `tryGet` adds no entry and touches no entry other than `key`; the
residual of `enhanceErrorItem` therefore has only keys of the source bag, each
with the raw bytes it had, and keeps every source entry other than "type" and
"extensions". -/
theorem tryGet_frame (json : Json) :
    (∀ (raw : GoMap RawMessage) (key k : GoString),
      (k ≠ key →
        (tryGet json.intoMap raw key).2.get k = raw.get k ∧
        (tryGet json.intoString raw key).2.get k = raw.get k) ∧
      (∀ v : RawMessage,
        ((tryGet json.intoMap raw key).2.get k = some v → raw.get k = some v) ∧
        ((tryGet json.intoString raw key).2.get k = some v → raw.get k = some v))) ∧
    (∀ base : GraphqlErrorItem,
      (enhanceErrorItem json base).Raw.keys ⊆ base.Raw.keys ∧
      (∀ (k : GoString) (v : RawMessage),
        (enhanceErrorItem json base).Raw.get k = some v → base.Raw.get k = some v) ∧
      (∀ k : GoString, k ≠ lit "type" → k ≠ lit "extensions" →
        (enhanceErrorItem json base).Raw.get k = base.Raw.get k)) := by
  refine ⟨?_, ?_⟩
  · intro raw key k
    refine ⟨fun h => ⟨tryGet_get_ne _ raw h, tryGet_get_ne _ raw h⟩, fun v => ⟨?_, ?_⟩⟩
    · exact fun h => tryGet_get_some _ raw h
    · exact fun h => tryGet_get_some _ raw h
  · intro base
    refine ⟨?_, ?_, ?_⟩
    · intro k hk
      rw [GoMap.mem_keys_iff] at hk ⊢
      cases hv : (enhanceErrorItem json base).Raw.get k with
      | none => exact absurd hv hk
      | some v =>
        rw [enhanceErrorItem_Raw_get_some json base k v hv]
        exact Option.some_ne_none v
    · exact fun k v h => enhanceErrorItem_Raw_get_some json base k v h
    · exact fun k h2 h1 => enhanceErrorItem_Raw_get_other json base k h1 h2

/-- The test `Test_tryGet/Case4`: extracting "k1" leaves exactly `k2: null`. -/
theorem tryGet_test_case4 :
    tryGet jsonUnmarshalString
        (GoMap.ofList [(lit "k1", lit "\"v1\""), (lit "k2", lit "null")]) (lit "k1")
      = (lit "v1", GoMap.ofList [(lit "k2", lit "null")]) := by
  rfl

/-- C8: for a bag without a "type" key `enhanceErrorItem` yields the empty
`Type` and a residual that is the bag as the "extensions" extraction left it;
`tryGet` on a missing key, and on the nil bag, returns the zero value and
leaves the bag unchanged. -/
theorem enhanceErrorItem_no_type (json : Json) (base : GraphqlErrorItem)
    (h : base.Raw.get (lit "type") = none) :
    ((enhanceErrorItem json base).Type_ = [] ∧
      (enhanceErrorItem json base).Raw = (tryGet json.intoMap base.Raw (lit "extensions")).2) ∧
    (∀ (raw : GoMap RawMessage) (key : GoString), raw.get key = none →
      tryGet json.intoMap raw key = (none, raw) ∧ tryGet json.intoString raw key = ([], raw)) ∧
    (∀ key : GoString,
      tryGet json.intoMap none key = (none, none) ∧ tryGet json.intoString none key = ([], none)) := by
  have h' : (tryGet json.intoMap base.Raw (lit "extensions")).2.get (lit "type") = none := by
    rw [tryGet_get_ne _ _ (Ne.symm extensions_ne_type)]
    exact h
  have h2 := tryGet_missing json.intoString _ (lit "type") h'
  refine ⟨⟨?_, ?_⟩, ?_, ?_⟩
  · simp only [enhanceErrorItem, h2]
    rfl
  · simp only [enhanceErrorItem, h2]
  · exact fun raw key hk => ⟨tryGet_missing _ raw key hk, tryGet_missing _ raw key hk⟩
  · exact fun key => ⟨rfl, rfl⟩

/-- C8 at an item whose bag holds "extensions" and "something" only. -/
theorem enhanceErrorItem_no_type_witness :
    untypedItem.Raw.get (lit "type") = none ∧
    (enhanceErrorItem stdJson untypedItem).Type_ = [] ∧
    (enhanceErrorItem stdJson untypedItem).Raw
      = (tryGet stdJson.intoMap untypedItem.Raw (lit "extensions")).2 :=
  ⟨by decide, (enhanceErrorItem_no_type stdJson untypedItem (by decide)).1⟩

/-- The test `Test_tryGet/Case1`: the nil bag gives the empty string. -/
theorem tryGet_test_case1 :
    tryGet jsonUnmarshalString none (lit "k") = ([], none) := by
  rfl

/-! ## Theorems: `enhanceError` -/

/-- The loop of `enhanceError` builds the list of the enhanced items. -/
theorem foldl_append_singleton {α β : Type} (f : α → β) (l : List α) (acc : List β) :
    l.foldl (fun enhanced baseItem => enhanced ++ [f baseItem]) acc = acc ++ l.map f := by
  induction l generalizing acc with
  | nil => simp
  | cons a l ih => simp [ih]

theorem enhanceError_graphql (json : Json) (g : GraphqlError) :
    enhanceError json (.graphqlError (some g)) =
      some (.enhancedError (some (Error.mk g.Err
        (g.Errors.map (fun items => items.map (enhanceErrorItem json))) g.Message))) := by
  cases hg : g.Errors with
  | none => simp [enhanceError, hg]
  | some items => simp [enhanceError, hg, foldl_append_singleton]

/-- C4: an error whose dynamic type is not `*graphql.Error`, the nil error
included, is returned by `enhanceError` as it is. -/
theorem enhanceError_passthrough (json : Json) (err : GoError)
    (h : ∀ p : Option GraphqlError, err ≠ GoError.graphqlError p) :
    enhanceError json err = some err := by
  cases err with
  | nil => rfl
  | graphqlError p => exact absurd rfl (h p)
  | enhancedError p => rfl
  | other id => rfl

/-- C4 at the error `errors.New("some err")` of `Test_enhanceError/Case1`. -/
theorem enhanceError_passthrough_witness :
    (∀ p : Option GraphqlError, GoError.other 1 ≠ GoError.graphqlError p) ∧
    enhanceError stdJson (GoError.other 1) = some (GoError.other 1) :=
  ⟨fun _ h => GoError.noConfusion h,
   enhanceError_passthrough stdJson (GoError.other 1) (fun _ h => GoError.noConfusion h)⟩

/-- The nil error comes back as the nil error. -/
theorem enhanceError_nil (json : Json) : enhanceError json GoError.nil = some GoError.nil :=
  rfl

/-- C5: for a GraphQL error `g`, `enhanceError` returns an `*Error` whose `Err`
and `Message` are those of `g`, so that `Error()` returns `g.Message` and
`Unwrap()` returns `g.Err`. -/
theorem enhanceError_copies (json : Json) (g : GraphqlError) :
    ∃ e : Error,
      enhanceError json (GoError.graphqlError (some g)) = some (GoError.enhancedError (some e)) ∧
      e.Err = g.Err ∧ e.Message = g.Message ∧
      Error.Error (some e) = some g.Message ∧ Error.Unwrap (some e) = some g.Err :=
  ⟨_, enhanceError_graphql json g, rfl, rfl, rfl, rfl⟩

/-- C6: for a GraphQL error with a non-nil item list, the item list of the
enhanced error has the same length, and its i-th item is `enhanceErrorItem` of
the i-th source item, carrying the i-th source message. -/
theorem enhanceError_items (json : Json) (g : GraphqlError) (items : List GraphqlErrorItem)
    (h : g.Errors = some items) :
    ∃ (e : Error) (out : List ErrorItem),
      enhanceError json (GoError.graphqlError (some g)) = some (GoError.enhancedError (some e)) ∧
      e.Errors = some out ∧ out.length = items.length ∧
      ∀ (i : Nat) (hi : i < items.length),
        out[i]? = some (enhanceErrorItem json (items.get ⟨i, hi⟩)) ∧
        (out[i]?).map ErrorItem.Message = some (items.get ⟨i, hi⟩).Message := by
  refine ⟨_, items.map (enhanceErrorItem json), enhanceError_graphql json g, ?_, ?_, ?_⟩
  · simp [Error.Errors, h]
  · simp
  · intro i hi
    simp [List.getElem?_map, List.getElem?_eq_getElem hi, enhanceErrorItem]

/-- C6 at the source error of `Test_enhanceError/Case3`. -/
theorem enhanceError_items_witness :
    testError3.Errors = some [{ Message := lit "msg2", Raw := none }] ∧
    ∃ (e : Error) (out : List ErrorItem),
      enhanceError stdJson (GoError.graphqlError (some testError3))
        = some (GoError.enhancedError (some e)) ∧
      e.Errors = some out ∧ out.length = 1 ∧
      ∀ (i : Nat) (hi : i < 1),
        out[i]? = some (enhanceErrorItem stdJson
          ([({ Message := lit "msg2", Raw := none } : GraphqlErrorItem)].get ⟨i, hi⟩)) ∧
        (out[i]?).map ErrorItem.Message
          = some ([({ Message := lit "msg2", Raw := none } : GraphqlErrorItem)].get ⟨i, hi⟩).Message :=
  ⟨rfl, enhanceError_items stdJson testError3 [{ Message := lit "msg2", Raw := none }] rfl⟩

/-- C7: for a GraphQL error without an item list, the enhanced error keeps the
wrapped cause and the message and has a nil item list. -/
theorem enhanceError_no_items (json : Json) (g : GraphqlError) (h : g.Errors = none) :
    enhanceError json (GoError.graphqlError (some g))
      = some (GoError.enhancedError (some (Error.mk g.Err none g.Message))) ∧
    (Error.mk g.Err none g.Message).Err = g.Err ∧
    (Error.mk g.Err none g.Message).Message = g.Message ∧
    (Error.mk g.Err none g.Message).Errors = none := by
  refine ⟨?_, rfl, rfl, rfl⟩
  rw [enhanceError_graphql, h]
  rfl

/-- C7 at the source error of `Test_enhanceError/Case2`. -/
theorem enhanceError_no_items_witness :
    testError2.Errors = none ∧
    enhanceError stdJson (GoError.graphqlError (some testError2))
      = some (GoError.enhancedError (some (Error.mk (GoError.other 1) none (lit "msg")))) :=
  ⟨rfl, (enhanceError_no_items stdJson testError2 rfl).1⟩

/-- A nil `*graphql.Error` makes `enhanceError` panic. -/
theorem enhanceError_nil_pointer (json : Json) :
    enhanceError json (GoError.graphqlError none) = none :=
  rfl

/-! ## Theorems: `BigInt` -/

namespace big

theorem digitByte_toNat (d : Nat) (h : d < 10) : (digitByte d).toNat = 48 + d := by
  unfold digitByte
  exact UInt8.toNat_ofNat_of_lt (by simp only [UInt8.size]; omega)

theorem digitVal_digitByte (d : Nat) (h : d < 10) : digitVal (digitByte d) = d := by
  unfold digitVal
  rw [digitByte_toNat d h]
  rw [if_pos (by omega)]
  omega

theorem digitByte_ne_sign (d : Nat) (h : d < 10) : digitByte d ≠ 45 ∧ digitByte d ≠ 43 := by
  constructor
  · intro hc
    have h1 := congrArg UInt8.toNat hc
    rw [digitByte_toNat d h] at h1
    have h2 : (45 : UInt8).toNat = 45 := by decide
    omega
  · intro hc
    have h1 := congrArg UInt8.toNat hc
    rw [digitByte_toNat d h] at h1
    have h2 : (43 : UInt8).toNat = 43 := by decide
    omega

theorem digitVal_lt_ten (ch : UInt8) :
    digitVal ch < 10 ↔ (48 ≤ ch.toNat ∧ ch.toNat ≤ 57) := by
  unfold digitVal
  split_ifs <;> omega

/-- Scanning the digits written by `itoaDigits` adds them to the value and
counts at least one digit. -/
theorem natScan_itoaDigits (fuel : Nat) :
    ∀ (n : Nat) (acc : Bytes) (z count : Nat), 1 ≤ fuel → n ≤ fuel →
      ∃ k : Nat, 1 ≤ k ∧
        natScan (itoaDigits fuel n acc) z count = natScan acc (z * 10 ^ k + n) (count + k) := by
  induction fuel with
  | zero => intro n acc z count h; omega
  | succ fuel ih =>
    intro n acc z count _ hn
    by_cases h10 : n < 10
    · refine ⟨1, le_refl 1, ?_⟩
      simp only [itoaDigits, h10, if_true, natScan, digitVal_digitByte n h10]
      rw [if_neg (by omega)]
      simp
    · obtain ⟨k, hk, hscan⟩ := ih (n / 10) (digitByte (n % 10) :: acc) z count
        (by omega) (by omega)
      refine ⟨k + 1, by omega, ?_⟩
      have hd : n % 10 < 10 := Nat.mod_lt n (by omega)
      simp only [itoaDigits, h10, if_false]
      rw [hscan]
      simp only [natScan, digitVal_digitByte (n % 10) hd]
      rw [if_neg (by omega)]
      have hv : (z * 10 ^ k + n / 10) * 10 + n % 10 = z * 10 ^ (k + 1) + n := by
        have := Nat.div_add_mod n 10
        rw [pow_succ]
        nlinarith
      rw [hv, Nat.add_assoc]

/-- The text written by `itoaDigits` starts with a digit. -/
theorem itoaDigits_head (fuel : Nat) :
    ∀ (n : Nat) (acc : Bytes), 1 ≤ fuel → n ≤ fuel →
      ∃ (d : Nat) (rest : Bytes), d < 10 ∧ itoaDigits fuel n acc = digitByte d :: rest := by
  induction fuel with
  | zero => intro n acc h; omega
  | succ fuel ih =>
    intro n acc _ hn
    by_cases h10 : n < 10
    · exact ⟨n, acc, h10, by simp [itoaDigits, h10]⟩
    · obtain ⟨d, rest, hd, hrest⟩ := ih (n / 10) (digitByte (n % 10) :: acc) (by omega) (by omega)
      exact ⟨d, rest, hd, by simp only [itoaDigits, h10, if_false]; exact hrest⟩

theorem scanSign_digits (n : Nat) (hn : 1 ≤ n) :
    scanSign (itoaDigits n n []) = some (false, itoaDigits n n []) := by
  obtain ⟨d, rest, hd, hrest⟩ := itoaDigits_head n n [] hn (le_refl n)
  rw [hrest]
  simp [scanSign, (digitByte_ne_sign d hd).1, (digitByte_ne_sign d hd).2]

theorem natScan_digits (n : Nat) (hn : 1 ≤ n) :
    ∃ k : Nat, 1 ≤ k ∧ natScan (itoaDigits n n []) 0 0 = (n, k, []) := by
  obtain ⟨k, hk, hscan⟩ := natScan_itoaDigits n n [] 0 0 hn (le_refl n)
  exact ⟨k, hk, by rw [hscan]; simp [natScan]⟩

/-- Reading back the text of an integer gives the integer. -/
theorem SetString_Text10 (x : Int) : SetString (Text10 x) = some x := by
  by_cases h0 : x.natAbs = 0
  · have hx : x = 0 := Int.natAbs_eq_zero.mp h0
    subst hx
    decide
  · have hn : 1 ≤ x.natAbs := Nat.one_le_iff_ne_zero.mpr h0
    obtain ⟨k, hk, hscan⟩ := natScan_digits x.natAbs hn
    have hk0 : k ≠ 0 := by omega
    by_cases hneg : x < 0
    · have hxv : -((x.natAbs : Nat) : Int) = x := by omega
      simp only [Text10, h0, if_false, hneg, if_true, List.singleton_append, SetString, intScan,
        scanSign, hscan, hk0]
      simp [hxv]
      rw [if_neg (ne_of_lt hneg), abs_of_neg hneg, neg_neg]
    · have hxv : ((x.natAbs : Nat) : Int) = x := by omega
      simp only [Text10, h0, if_false, hneg, List.nil_append, SetString, intScan,
        scanSign_digits x.natAbs hn, hscan, hk0]
      simp [hxv]

/-- The mantissa scanner counts a digit and leaves nothing exactly on a run
of digits. -/
theorem natScan_consumed (r : Bytes) :
    ∀ z count : Nat,
      ((natScan r z count).2.1 ≠ 0 ∧ (natScan r z count).2.2 = []) ↔
        ((count ≠ 0 ∨ r ≠ []) ∧ r.all (fun d => 48 ≤ d.toNat && d.toNat ≤ 57) = true) := by
  induction r with
  | nil => intro z count; simp [natScan]
  | cons ch rest ih =>
    intro z count
    by_cases hd : digitVal ch < 10
    · have hd' := (digitVal_lt_ten ch).mp hd
      simp only [natScan]
      rw [if_neg (by omega), ih]
      simp [hd'.1, hd'.2]
    · have hd' : ¬ (48 ≤ ch.toNat ∧ ch.toNat ≤ 57) := fun h => hd ((digitVal_lt_ten ch).mpr h)
      simp only [natScan]
      rw [if_pos (by omega)]
      simp only [ne_eq, reduceCtorEq, and_false, not_false_eq_true, or_true, List.all_cons,
        Bool.and_eq_true, decide_eq_true_eq, true_and, false_iff, not_and]
      intro h
      exact absurd h hd'

theorem SetString_of_scan (neg : Bool) (s r1 : Bytes) (h : scanSign s = some (neg, r1)) :
    (SetString s).isSome =
      (decide (r1 ≠ []) && r1.all (fun d => 48 ≤ d.toNat && d.toNat ≤ 57)) := by
  have hc := natScan_consumed r1 0 0
  simp only [SetString, intScan, h]
  by_cases h1 : (natScan r1 0 0).2.1 = 0
  · have : ¬ ((r1 ≠ []) ∧ r1.all (fun d => 48 ≤ d.toNat && d.toNat ≤ 57) = true) := by
      intro hh
      exact (hc.mpr ⟨Or.inr hh.1, hh.2⟩).1 h1
    simp only [h1, if_true, Option.isSome_none]
    cases hb : (decide (r1 ≠ []) && r1.all (fun d => 48 ≤ d.toNat && d.toNat ≤ 57)) with
    | false => rfl
    | true =>
      rw [Bool.and_eq_true, decide_eq_true_eq] at hb
      exact absurd hb this
  · simp only [h1, if_false]
    by_cases h2 : (natScan r1 0 0).2.2 = []
    · have := hc.mp ⟨h1, h2⟩
      have hne : r1 ≠ [] := by
        rcases this.1 with h | h
        · exact absurd rfl h
        · exact h
      simp [h2, hne, this.2]
    · have : ¬ ((r1 ≠ []) ∧ r1.all (fun d => 48 ≤ d.toNat && d.toNat ≤ 57) = true) := by
        intro hh
        exact h2 (hc.mpr ⟨Or.inr hh.1, hh.2⟩).2
      simp only [h2, if_false, Option.isSome_none]
      cases hb : (decide (r1 ≠ []) && r1.all (fun d => 48 ≤ d.toNat && d.toNat ≤ 57)) with
      | false => rfl
      | true =>
        rw [Bool.and_eq_true, decide_eq_true_eq] at hb
        exact absurd hb this

end big

/-- The scanner of `math/big` accepts exactly the base-10 numerals. -/
theorem SetString_isSome (s : Bytes) : (big.SetString s).isSome = isBase10Numeral s := by
  cases s with
  | nil => rfl
  | cons c cs =>
    by_cases h45 : c = 45
    · rw [big.SetString_of_scan true (c :: cs) cs (by simp [big.scanSign, h45])]
      cases cs <;> simp [isBase10Numeral, h45]
    · by_cases h43 : c = 43
      · rw [big.SetString_of_scan false (c :: cs) cs (by simp [big.scanSign, h45, h43])]
        cases cs <;> simp [isBase10Numeral, h43]
      · rw [big.SetString_of_scan false (c :: cs) (c :: cs) (by simp [big.scanSign, h45, h43])]
        simp [isBase10Numeral, h45, h43]

/-- C9: for every integer `n`, of any magnitude and sign, `UnmarshalText`
applied to the bytes `MarshalText` produces for `n` succeeds and leaves the
receiver holding `n`; `MarshalText` itself returns a nil error. -/
theorem BigInt_roundtrip (n : Int) (recv : BigInt) :
    (BigInt.MarshalText { N := n }).2 = GoError.nil ∧
    BigInt.UnmarshalText recv (BigInt.MarshalText { N := n }).1 = Except.ok { N := n } := by
  refine ⟨rfl, ?_⟩
  simp only [BigInt.UnmarshalText, BigInt.MarshalText, big.SetString_Text10]

/-- C10: `(*BigInt).UnmarshalText` returns an error exactly when the text is
not an optional single `+` or `-` followed by one or more decimal digits, and
returns nil exactly when it is; the empty text, a bare sign, a doubled sign,
and text with whitespace, an underscore, a decimal point, an exponent, a base
marker or a letter are rejected. -/
theorem BigInt_UnmarshalText_error_iff :
    (∀ (recv : BigInt) (b : Bytes),
      ((∃ e : ParseError, BigInt.UnmarshalText recv b = Except.error e) ↔
        isBase10Numeral b = false) ∧
      ((∃ v : BigInt, BigInt.UnmarshalText recv b = Except.ok v) ↔
        isBase10Numeral b = true)) ∧
    (∀ (recv : BigInt) (b : Bytes),
      b ∈ [lit "", lit "+", lit "-", lit "+-1", lit "--1", lit " 1", lit "1 ", lit "1\n",
           lit "1_000", lit "_1", lit "1.5", lit "1e3", lit "0x10", lit "abc", lit "12a",
           lit "١٢"] →
      BigInt.UnmarshalText recv b = Except.error { text := b }) := by
  constructor
  · intro recv b
    have h := SetString_isSome b
    cases hs : big.SetString b with
    | none =>
      rw [hs] at h
      have hb : isBase10Numeral b = false := h.symm
      simp [BigInt.UnmarshalText, hs, hb]
    | some n =>
      rw [hs] at h
      have hb : isBase10Numeral b = true := h.symm
      simp [BigInt.UnmarshalText, hs, hb]
  · intro recv b hb
    have hnone : ∀ t : Bytes, big.SetString t = none →
        BigInt.UnmarshalText recv t = Except.error { text := t } := by
      intro t ht
      simp [BigInt.UnmarshalText, ht]
    simp only [List.mem_cons, List.mem_singleton, List.not_mem_nil, or_false] at hb
    rcases hb with h | h | h | h | h | h | h | h | h | h | h | h | h | h | h | h <;>
      subst h <;> exact hnone _ (by decide)

namespace big

/-- On a run of digits the mantissa scanner returns their value, counts them
all and leaves nothing. -/
theorem natScan_value (r : Bytes) :
    r.all (fun d => 48 ≤ d.toNat && d.toNat ≤ 57) = true →
    ∀ z count : Nat,
      natScan r z count =
        (r.foldl (fun z d => z * 10 + (d.toNat - 48)) z, count + r.length, []) := by
  induction r with
  | nil => intro _ z count; simp [natScan]
  | cons ch rest ih =>
    intro hall z count
    simp only [List.all_cons, Bool.and_eq_true, decide_eq_true_eq] at hall
    have hv : digitVal ch = ch.toNat - 48 := by
      unfold digitVal
      rw [if_pos hall.1]
    have hlt : digitVal ch < 10 := (digitVal_lt_ten ch).mpr hall.1
    simp only [natScan]
    rw [if_neg (by omega), ih hall.2, hv]
    simp only [List.foldl_cons, List.length_cons]
    congr 2
    omega

theorem SetString_digits (neg : Bool) (s r1 : Bytes) (h : scanSign s = some (neg, r1))
    (hd : isDigitString r1 = true) :
    SetString s = some (if neg = true then -(decimalValue r1 : Int) else (decimalValue r1 : Int)) := by
  simp only [isDigitString, Bool.and_eq_true, Bool.not_eq_true', List.isEmpty_eq_false] at hd
  have hlen : r1.length ≠ 0 := by
    intro h0
    exact hd.1 (List.length_eq_zero.mp h0)
  have hscan := natScan_value r1 hd.2 0 0
  simp only [SetString, intScan, h, hscan, Nat.zero_add, hlen, if_false, if_true]
  cases neg with
  | false => simp [decimalValue]
  | true =>
    by_cases h0 : 0 < decimalValue r1
    · simp [decimalValue] at h0 ⊢
      intro hz
      omega
    · have hz : decimalValue r1 = 0 := by omega
      simp only [decimalValue] at hz
      simp [decimalValue, hz]

end big

theorem SetString_numeral (s : Bytes) (h : isBase10Numeral s = true) :
    big.SetString s = some (numeralValue s) := by
  cases s with
  | nil => simp [isBase10Numeral] at h
  | cons c cs =>
    by_cases h45 : c = 45
    · have hd : isDigitString cs = true := by
        simpa [isBase10Numeral, h45, isDigitString] using h
      rw [big.SetString_digits true (c :: cs) cs (by simp [big.scanSign, h45]) hd]
      simp [numeralValue, h45]
    · by_cases h43 : c = 43
      · have hd : isDigitString cs = true := by
          simpa [isBase10Numeral, h43, isDigitString] using h
        rw [big.SetString_digits false (c :: cs) cs (by simp [big.scanSign, h45, h43]) hd]
        simp [numeralValue, h43]
      · have hd : isDigitString (c :: cs) = true := by
          simpa [isBase10Numeral, h45, h43, isDigitString] using h
        rw [big.SetString_digits false (c :: cs) (c :: cs)
          (by simp [big.scanSign, h45, h43]) hd]
        simp [numeralValue, h45, h43]

/-- C11: on a valid base-10 numeral `(*BigInt).UnmarshalText` returns nil and
sets the value to the integer the numeral denotes; for a string `d` of one or
more digits, decoding `+d` succeeds and gives the value that decoding `d`
gives. The texts "-4", "100009" and "+5" give -4, 100009 and 5. -/
theorem BigInt_UnmarshalText_value :
    (∀ (recv : BigInt) (b : Bytes), isBase10Numeral b = true →
      BigInt.UnmarshalText recv b = Except.ok { N := numeralValue b }) ∧
    (∀ (recv : BigInt) (d : Bytes), isDigitString d = true →
      BigInt.UnmarshalText recv (43 :: d) = Except.ok { N := (decimalValue d : Int) } ∧
      BigInt.UnmarshalText recv (43 :: d) = BigInt.UnmarshalText recv d) ∧
    (∀ recv : BigInt,
      BigInt.UnmarshalText recv (lit "-4") = Except.ok { N := -4 } ∧
      BigInt.UnmarshalText recv (lit "100009") = Except.ok { N := 100009 } ∧
      BigInt.UnmarshalText recv (lit "+5") = Except.ok { N := 5 }) := by
  refine ⟨?_, ?_, ?_⟩
  · intro recv b hb
    simp [BigInt.UnmarshalText, SetString_numeral b hb]
  · intro recv d hd
    have h1 : big.SetString (43 :: d) = some (decimalValue d : Int) := by
      rw [big.SetString_digits false (43 :: d) d (by simp [big.scanSign]) hd]
      simp
    have h2 : big.SetString d = some (decimalValue d : Int) := by
      cases d with
      | nil => simp [isDigitString] at hd
      | cons c cs =>
        have hc : 48 ≤ c.toNat ∧ c.toNat ≤ 57 := by
          simp [isDigitString] at hd
          exact hd.1
        have h45 : c ≠ 45 := by
          intro hh
          rw [hh] at hc
          have : (45 : UInt8).toNat = 45 := by decide
          omega
        have h43 : c ≠ 43 := by
          intro hh
          rw [hh] at hc
          have : (43 : UInt8).toNat = 43 := by decide
          omega
        rw [big.SetString_digits false (c :: cs) (c :: cs)
          (by simp [big.scanSign, h45, h43]) hd]
        simp
    simp [BigInt.UnmarshalText, h1, h2]
  · intro recv
    refine ⟨?_, ?_, ?_⟩ <;> simp only [BigInt.UnmarshalText] <;> rfl

/-- C11 at the numeral "-4" and at the digit string "5". -/
theorem BigInt_UnmarshalText_value_witness :
    (isBase10Numeral (lit "-4") = true ∧
      BigInt.UnmarshalText { N := 0 } (lit "-4") = Except.ok { N := numeralValue (lit "-4") }) ∧
    (isDigitString (lit "5") = true ∧
      BigInt.UnmarshalText { N := 0 } (43 :: lit "5")
        = Except.ok { N := (decimalValue (lit "5") : Int) } ∧
      BigInt.UnmarshalText { N := 0 } (43 :: lit "5")
        = BigInt.UnmarshalText { N := 0 } (lit "5")) :=
  ⟨⟨by decide, BigInt_UnmarshalText_value.1 { N := 0 } (lit "-4") (by decide)⟩,
   ⟨by decide, BigInt_UnmarshalText_value.2.1 { N := 0 } (lit "5") (by decide)⟩⟩

theorem decimalValue_append (ds : Bytes) (b : UInt8) :
    decimalValue (ds ++ [b]) = decimalValue ds * 10 + (b.toNat - 48) := by
  simp [decimalValue, List.foldl_append]

namespace big

/-- The text written by `itoaDigits` is a digit string that denotes `n` and,
for a positive `n`, does not start with a zero. -/
theorem itoaDigits_spec (fuel : Nat) :
    ∀ (n : Nat) (acc : Bytes), 1 ≤ fuel → n ≤ fuel →
      ∃ ds : Bytes, itoaDigits fuel n acc = ds ++ acc ∧ isDigitString ds = true ∧
        decimalValue ds = n ∧ (1 ≤ n → ds.head? ≠ some 48) := by
  induction fuel with
  | zero => intro n acc h; omega
  | succ fuel ih =>
    intro n acc _ hn
    by_cases h10 : n < 10
    · refine ⟨[digitByte n], by simp [itoaDigits, h10], ?_, ?_, ?_⟩
      · simp [isDigitString, digitByte_toNat n h10]
        omega
      · simp [decimalValue, digitByte_toNat n h10]
      · intro h1 hc
        simp only [List.head?_cons, Option.some.injEq] at hc
        have h2 := congrArg UInt8.toNat hc
        rw [digitByte_toNat n h10] at h2
        have h3 : (48 : UInt8).toNat = 48 := by decide
        omega
    · obtain ⟨ds, hds, hdig, hval, hhead⟩ := ih (n / 10) (digitByte (n % 10) :: acc)
        (by omega) (by omega)
      have hd : n % 10 < 10 := Nat.mod_lt n (by omega)
      have hne : ds ≠ [] := by
        intro h0
        rw [h0] at hdig
        simp [isDigitString] at hdig
      refine ⟨ds ++ [digitByte (n % 10)], ?_, ?_, ?_, ?_⟩
      · simp only [itoaDigits, h10, if_false]
        rw [hds]
        simp
      · simp only [isDigitString, Bool.and_eq_true, Bool.not_eq_true', List.isEmpty_eq_false]
          at hdig ⊢
        refine ⟨by simp, ?_⟩
        rw [List.all_append, hdig.2]
        simp [digitByte_toNat (n % 10) hd]
        omega
      · rw [decimalValue_append, hval, digitByte_toNat (n % 10) hd]
        omega
      · intro _
        have h1 := hhead (by omega)
        cases ds with
        | nil => exact absurd rfl hne
        | cons a rest => simpa using h1

end big

/-- C12: for every integer `n`, `BigInt.MarshalText` returns a nil error and
the base-10 text of `n`: a string of one or more decimal digits that denotes
the absolute value, without a leading zero unless it is "0", preceded by `-`
exactly when `n` is negative; the text never starts with `+`. The values -3
and 100000 give "-3" and "100000". -/
theorem BigInt_MarshalText_text (n : Int) :
    (BigInt.MarshalText { N := n }).2 = GoError.nil ∧
    (∃ ds : Bytes, isDigitString ds = true ∧ decimalValue ds = n.natAbs ∧
      (ds = lit "0" ∨ ds.head? ≠ some 48) ∧
      (BigInt.MarshalText { N := n }).1 = (if n < 0 then [45] else []) ++ ds) ∧
    (BigInt.MarshalText { N := n }).1.head? ≠ some 43 ∧
    (BigInt.MarshalText { N := -3 }).1 = lit "-3" ∧
    (BigInt.MarshalText { N := 100000 }).1 = lit "100000" := by
  have hmain : ∃ ds : Bytes, isDigitString ds = true ∧ decimalValue ds = n.natAbs ∧
      (ds = lit "0" ∨ ds.head? ≠ some 48) ∧
      (BigInt.MarshalText { N := n }).1 = (if n < 0 then [45] else []) ++ ds := by
    by_cases h0 : n.natAbs = 0
    · have hn : n = 0 := Int.natAbs_eq_zero.mp h0
      subst hn
      exact ⟨lit "0", by decide, by decide, Or.inl rfl, by decide⟩
    · have h1 : 1 ≤ n.natAbs := Nat.one_le_iff_ne_zero.mpr h0
      obtain ⟨ds, hds, hdig, hval, hhead⟩ :=
        big.itoaDigits_spec n.natAbs n.natAbs [] h1 (le_refl _)
      refine ⟨ds, hdig, hval, Or.inr (hhead h1), ?_⟩
      simp only [BigInt.MarshalText, big.Text10, h0, if_false, hds, List.append_nil]
  refine ⟨rfl, hmain, ?_, by decide, by decide⟩
  obtain ⟨ds, hdig, _, _, htext⟩ := hmain
  rw [htext]
  by_cases hneg : n < 0
  · simp [hneg]
  · simp only [hneg, if_false, List.nil_append]
    cases ds with
    | nil => simp
    | cons c cs =>
      simp only [isDigitString, List.isEmpty_cons, Bool.not_false, List.all_cons,
        Bool.and_eq_true, decide_eq_true_eq, Bool.true_and] at hdig
      intro hc
      simp only [List.head?_cons, Option.some.injEq] at hc
      rw [hc] at hdig
      have : (43 : UInt8).toNat = 43 := by decide
      omega

/-! ## Theorems: the identity-passthrough scalars -/

/-- C16: for each of the seven identity-passthrough scalars and every byte
string `s`, `MarshalText` of a value with payload `s` returns exactly `s` and a
nil error, and `UnmarshalText(s)` returns nil and leaves the payload equal to
`s`, whatever the receiver held; text that is neither base64 nor a date goes
through unchanged. -/
theorem identity_scalars_passthrough (s : Bytes) :
    (Base64String.MarshalText { S := s } = (s, GoError.nil) ∧
      ∀ recv : Base64String, Base64String.UnmarshalText recv s = ({ S := s }, GoError.nil)) ∧
    (Date.MarshalText { S := s } = (s, GoError.nil) ∧
      ∀ recv : Date, Date.UnmarshalText recv s = ({ S := s }, GoError.nil)) ∧
    (GitObjectID.MarshalText { S := s } = (s, GoError.nil) ∧
      ∀ recv : GitObjectID, GitObjectID.UnmarshalText recv s = ({ S := s }, GoError.nil)) ∧
    (GitTimestamp.MarshalText { S := s } = (s, GoError.nil) ∧
      ∀ recv : GitTimestamp, GitTimestamp.UnmarshalText recv s = ({ S := s }, GoError.nil)) ∧
    (GitSSHRemote.MarshalText { S := s } = (s, GoError.nil) ∧
      ∀ recv : GitSSHRemote, GitSSHRemote.UnmarshalText recv s = ({ S := s }, GoError.nil)) ∧
    (HTML.MarshalText { S := s } = (s, GoError.nil) ∧
      ∀ recv : HTML, HTML.UnmarshalText recv s = ({ S := s }, GoError.nil)) ∧
    (URI.MarshalText { S := s } = (s, GoError.nil) ∧
      ∀ recv : URI, URI.UnmarshalText recv s = ({ S := s }, GoError.nil)) ∧
    Base64String.UnmarshalText { S := [] } (lit "!not base64!")
      = ({ S := lit "!not base64!" }, GoError.nil) ∧
    Date.UnmarshalText { S := [] } (lit "2023-13-45") = ({ S := lit "2023-13-45" }, GoError.nil) :=
  ⟨⟨rfl, fun _ => rfl⟩, ⟨rfl, fun _ => rfl⟩, ⟨rfl, fun _ => rfl⟩, ⟨rfl, fun _ => rfl⟩,
   ⟨rfl, fun _ => rfl⟩, ⟨rfl, fun _ => rfl⟩, ⟨rfl, fun _ => rfl⟩, rfl, rfl⟩

/-- C17: for each of the seven identity-passthrough scalars, unmarshalling the
text a value `v` marshals to gives a value equal to `v` with a nil error, and
marshalling after unmarshalling a text `b` gives `b` with a nil error. -/
theorem identity_scalars_roundtrip :
    ((∀ v recv : Base64String, Base64String.UnmarshalText recv (Base64String.MarshalText v).1 = (v, GoError.nil)) ∧
      ∀ (b : Bytes) (recv : Base64String),
        Base64String.MarshalText (Base64String.UnmarshalText recv b).1 = (b, GoError.nil)) ∧
    ((∀ v recv : Date, Date.UnmarshalText recv (Date.MarshalText v).1 = (v, GoError.nil)) ∧
      ∀ (b : Bytes) (recv : Date),
        Date.MarshalText (Date.UnmarshalText recv b).1 = (b, GoError.nil)) ∧
    ((∀ v recv : GitObjectID, GitObjectID.UnmarshalText recv (GitObjectID.MarshalText v).1 = (v, GoError.nil)) ∧
      ∀ (b : Bytes) (recv : GitObjectID),
        GitObjectID.MarshalText (GitObjectID.UnmarshalText recv b).1 = (b, GoError.nil)) ∧
    ((∀ v recv : GitTimestamp, GitTimestamp.UnmarshalText recv (GitTimestamp.MarshalText v).1 = (v, GoError.nil)) ∧
      ∀ (b : Bytes) (recv : GitTimestamp),
        GitTimestamp.MarshalText (GitTimestamp.UnmarshalText recv b).1 = (b, GoError.nil)) ∧
    ((∀ v recv : GitSSHRemote, GitSSHRemote.UnmarshalText recv (GitSSHRemote.MarshalText v).1 = (v, GoError.nil)) ∧
      ∀ (b : Bytes) (recv : GitSSHRemote),
        GitSSHRemote.MarshalText (GitSSHRemote.UnmarshalText recv b).1 = (b, GoError.nil)) ∧
    ((∀ v recv : HTML, HTML.UnmarshalText recv (HTML.MarshalText v).1 = (v, GoError.nil)) ∧
      ∀ (b : Bytes) (recv : HTML),
        HTML.MarshalText (HTML.UnmarshalText recv b).1 = (b, GoError.nil)) ∧
    ((∀ v recv : URI, URI.UnmarshalText recv (URI.MarshalText v).1 = (v, GoError.nil)) ∧
      ∀ (b : Bytes) (recv : URI),
        URI.MarshalText (URI.UnmarshalText recv b).1 = (b, GoError.nil)) :=
  ⟨⟨fun _ _ => rfl, fun _ _ => rfl⟩, ⟨fun _ _ => rfl, fun _ _ => rfl⟩,
   ⟨fun _ _ => rfl, fun _ _ => rfl⟩, ⟨fun _ _ => rfl, fun _ _ => rfl⟩,
   ⟨fun _ _ => rfl, fun _ _ => rfl⟩, ⟨fun _ _ => rfl, fun _ _ => rfl⟩,
   ⟨fun _ _ => rfl, fun _ _ => rfl⟩⟩

/-! ## Theorems: order, `null` and repetition of the extractions -/

section TryGetOrder

variable {T : Type} [Inhabited T]

/-- The outcome of `tryGet` is decided by what decoding the entry gives. -/
theorem tryGet_eq_bind (unmarshal : Unmarshal T) (raw : GoMap RawMessage) (key : GoString) :
    tryGet unmarshal raw key =
      match (raw.get key).bind unmarshal with
      | none => (default, raw)
      | some v => (v, raw.delete key) := by
  cases hget : raw.get key with
  | none => simp [tryGet_missing unmarshal raw key hget]
  | some valueJSON =>
    cases hdec : unmarshal valueJSON with
    | none => simp [tryGet_undecodable unmarshal raw key valueJSON hget hdec, hdec]
    | some v => simp [tryGet_decoded unmarshal raw key valueJSON v hget hdec, hdec]

/-- After `tryGet` the entry under the key, if any, is one the decoder rejects. -/
theorem tryGet_get_bind (unmarshal : Unmarshal T) (raw : GoMap RawMessage) (key : GoString) :
    ((tryGet unmarshal raw key).2.get key).bind unmarshal = none := by
  rw [tryGet_eq_bind]
  cases h : (raw.get key).bind unmarshal with
  | none => exact h
  | some v => simp [GoMap.get_delete_self]

/-- A second `tryGet` on the same key returns the zero value and changes nothing. -/
theorem tryGet_again (unmarshal : Unmarshal T) (raw : GoMap RawMessage) (key : GoString) :
    tryGet unmarshal (tryGet unmarshal raw key).2 key = (default, (tryGet unmarshal raw key).2) := by
  rw [tryGet_eq_bind unmarshal (tryGet unmarshal raw key).2 key, tryGet_get_bind]

end TryGetOrder

/-- Two `tryGet` calls on distinct keys commute: each returns the value it
returns when called first, and the map left behind is the same. -/
theorem tryGet_comm {T1 T2 : Type} [Inhabited T1] [Inhabited T2] (u1 : Unmarshal T1)
    (u2 : Unmarshal T2) (raw : GoMap RawMessage) (k1 k2 : GoString) (h : k1 ≠ k2) :
    (tryGet u2 (tryGet u1 raw k1).2 k2).1 = (tryGet u2 raw k2).1 ∧
    (tryGet u1 (tryGet u2 raw k2).2 k1).1 = (tryGet u1 raw k1).1 ∧
    (tryGet u2 (tryGet u1 raw k1).2 k2).2 = (tryGet u1 (tryGet u2 raw k2).2 k1).2 := by
  have g1 : (tryGet u1 raw k1).2.get k2 = raw.get k2 := tryGet_get_ne u1 raw (Ne.symm h)
  have g2 : (tryGet u2 raw k2).2.get k1 = raw.get k1 := tryGet_get_ne u2 raw h
  rw [tryGet_eq_bind u2 (tryGet u1 raw k1).2 k2, tryGet_eq_bind u1 (tryGet u2 raw k2).2 k1,
    g1, g2, tryGet_eq_bind u1 raw k1, tryGet_eq_bind u2 raw k2]
  cases (raw.get k1).bind u1 with
  | none =>
    cases (raw.get k2).bind u2 with
    | none => exact ⟨rfl, rfl, rfl⟩
    | some v2 => exact ⟨rfl, rfl, rfl⟩
  | some v1 =>
    cases (raw.get k2).bind u2 with
    | none => exact ⟨rfl, rfl, rfl⟩
    | some v2 => exact ⟨rfl, rfl, GoMap.delete_comm raw k1 k2⟩

/-- C18: extracting "extensions" and then "type", as `enhanceErrorItem` does,
gives the same `Extensions`, the same `Type` and the same residual bag as
extracting "type" and then "extensions"; more generally two `tryGet` calls on
distinct keys give the same two values and the same bag in either order. -/
theorem extraction_order_independent (json : Json) (base : GraphqlErrorItem) :
    ((enhanceErrorItem json base).Extensions
        = (tryGet json.intoMap (tryGet json.intoString base.Raw (lit "type")).2
            (lit "extensions")).1 ∧
      (enhanceErrorItem json base).Type_ = (tryGet json.intoString base.Raw (lit "type")).1 ∧
      (enhanceErrorItem json base).Raw
        = (tryGet json.intoMap (tryGet json.intoString base.Raw (lit "type")).2
            (lit "extensions")).2) ∧
    (∀ (raw : GoMap RawMessage) (k1 k2 : GoString), k1 ≠ k2 →
      (tryGet json.intoString (tryGet json.intoMap raw k1).2 k2).1
        = (tryGet json.intoString raw k2).1 ∧
      (tryGet json.intoMap (tryGet json.intoString raw k2).2 k1).1
        = (tryGet json.intoMap raw k1).1 ∧
      (tryGet json.intoString (tryGet json.intoMap raw k1).2 k2).2
        = (tryGet json.intoMap (tryGet json.intoString raw k2).2 k1).2) := by
  have h := tryGet_comm json.intoMap json.intoString base.Raw (lit "extensions") (lit "type")
    extensions_ne_type
  exact ⟨⟨h.2.1.symm, h.1, h.2.2⟩,
    fun raw k1 k2 hk => tryGet_comm json.intoMap json.intoString raw k1 k2 hk⟩

/-- The test `Test_enhanceErrorItem/Case1` with the extractions in the other
order: the same three results. -/
theorem extraction_order_test :
    (tryGet jsonUnmarshalString testItemRaw (lit "type")).1 = lit "type123" ∧
    (tryGet jsonUnmarshalMap (tryGet jsonUnmarshalString testItemRaw (lit "type")).2
      (lit "extensions")).1 = testItemExtensions ∧
    (tryGet jsonUnmarshalMap (tryGet jsonUnmarshalString testItemRaw (lit "type")).2
      (lit "extensions")).2 = GoMap.ofList [(lit "something", lit "123")] :=
  ⟨by rfl, by rfl, by rfl⟩

/-- C19: with a decoder for which `null` decodes without error and leaves the
zero value, as `json.Unmarshal` does for a string and for a map, a "type"
entry `null` gives `Type = ""` and an "extensions" entry `null` gives nil
`Extensions`, and in both cases the key is gone from the residual. -/
theorem null_entry_removed (json : Json) (hS : json.intoString (lit "null") = some [])
    (hM : json.intoMap (lit "null") = some none) (base : GraphqlErrorItem) :
    (base.Raw.get (lit "type") = some (lit "null") →
      (enhanceErrorItem json base).Type_ = [] ∧
      (enhanceErrorItem json base).Raw.get (lit "type") = none) ∧
    (base.Raw.get (lit "extensions") = some (lit "null") →
      (enhanceErrorItem json base).Extensions = none ∧
      (enhanceErrorItem json base).Raw.get (lit "extensions") = none) := by
  constructor
  · intro hget
    have hget' : (tryGet json.intoMap base.Raw (lit "extensions")).2.get (lit "type")
        = some (lit "null") := by
      rw [tryGet_get_ne _ _ (Ne.symm extensions_ne_type)]
      exact hget
    have h := tryGet_decoded json.intoString _ (lit "type") (lit "null") [] hget' hS
    constructor
    · simp only [enhanceErrorItem, h]
    · simp only [enhanceErrorItem, h]
      exact GoMap.get_delete_self _ _
  · intro hget
    have h := tryGet_decoded json.intoMap base.Raw (lit "extensions") (lit "null") none hget hM
    constructor
    · simp only [enhanceErrorItem, h]
    · simp only [enhanceErrorItem, h]
      rw [tryGet_get_ne _ _ extensions_ne_type]
      exact GoMap.get_delete_self _ _

/-- C19 at an item whose "type" and "extensions" are both `null`, with the
concrete JSON decoder. -/
theorem null_entry_removed_witness :
    (stdJson.intoString (lit "null") = some [] ∧ stdJson.intoMap (lit "null") = some none ∧
      nullItem.Raw.get (lit "type") = some (lit "null") ∧
      nullItem.Raw.get (lit "extensions") = some (lit "null")) ∧
    ((enhanceErrorItem stdJson nullItem).Type_ = [] ∧
      (enhanceErrorItem stdJson nullItem).Raw.get (lit "type") = none) ∧
    ((enhanceErrorItem stdJson nullItem).Extensions = none ∧
      (enhanceErrorItem stdJson nullItem).Raw.get (lit "extensions") = none) :=
  ⟨⟨by decide, by rfl, by decide, by decide⟩,
   (null_entry_removed stdJson (by decide) (by rfl) nullItem).1 (by decide),
   (null_entry_removed stdJson (by decide) (by rfl) nullItem).2 (by decide)⟩

/-- The residual of the item with two `null` entries holds `something` only. -/
theorem null_entry_test_residual :
    (enhanceErrorItem stdJson nullItem).Raw = GoMap.ofList [(lit "something", lit "123")] := by
  rfl

/-- C20: a second `enhanceErrorItem` call on a source item, made after a first
one, returns the empty `Type` and nil `Extensions` with the source message, and
its residual bag is the bag as the first call left it. -/
theorem enhanceErrorItem_second_call (json : Json) (base : GraphqlErrorItem) :
    (enhanceErrorItem json (sourceAfterEnhance json base)).Type_ = [] ∧
    (enhanceErrorItem json (sourceAfterEnhance json base)).Extensions = none ∧
    (enhanceErrorItem json (sourceAfterEnhance json base)).Raw
      = (enhanceErrorItem json base).Raw ∧
    (enhanceErrorItem json (sourceAfterEnhance json base)).Message = base.Message := by
  have hc := tryGet_comm json.intoMap json.intoString base.Raw (lit "extensions") (lit "type")
    extensions_ne_type
  have hraw : (sourceAfterEnhance json base).Raw
      = (tryGet json.intoMap (tryGet json.intoString base.Raw (lit "type")).2
          (lit "extensions")).2 := by
    simp only [sourceAfterEnhance, enhanceErrorItem]
    exact hc.2.2
  have h1 : tryGet json.intoMap (sourceAfterEnhance json base).Raw (lit "extensions")
      = (default, (sourceAfterEnhance json base).Raw) := by
    rw [hraw]
    exact tryGet_again json.intoMap _ (lit "extensions")
  have hraw2 : (sourceAfterEnhance json base).Raw
      = (tryGet json.intoString (tryGet json.intoMap base.Raw (lit "extensions")).2
          (lit "type")).2 := rfl
  have h2 : tryGet json.intoString (sourceAfterEnhance json base).Raw (lit "type")
      = (default, (sourceAfterEnhance json base).Raw) := by
    rw [hraw2]
    exact tryGet_again json.intoString _ (lit "type")
  refine ⟨?_, ?_, ?_, rfl⟩
  · simp only [enhanceErrorItem, h1, h2]
    rfl
  · simp only [enhanceErrorItem, h1]
    rfl
  · simp only [enhanceErrorItem, h1, h2]
    rfl

/-- The test item enhanced twice: the first call extracts "type123", the
second call finds nothing and leaves `something: 123`. -/
theorem enhanceErrorItem_second_call_test :
    (enhanceErrorItem stdJson testItem).Type_ = lit "type123" ∧
    (enhanceErrorItem stdJson (sourceAfterEnhance stdJson testItem)).Type_ = [] ∧
    (enhanceErrorItem stdJson (sourceAfterEnhance stdJson testItem)).Extensions = none ∧
    (enhanceErrorItem stdJson (sourceAfterEnhance stdJson testItem)).Raw
      = GoMap.ofList [(lit "something", lit "123")] :=
  ⟨by decide, by decide, by rfl, by rfl⟩

/-! ## Theorems: `DateTime` and `PreciseDateTime` -/

theorem decimalValue_nil : decimalValue [] = 0 := rfl

theorem decimalValue_cons_append (ds es : Bytes) :
    decimalValue (ds ++ es) = decimalValue ds * 10 ^ es.length + decimalValue es := by
  induction es using List.reverseRecOn with
  | nil => simp [decimalValue]
  | append_singleton es e ih =>
    rw [← List.append_assoc, decimalValue_append, ih, decimalValue_append]
    simp only [List.length_append, List.length_singleton, pow_succ]
    ring

namespace time

theorem fixedDigits_length (w : Nat) : ∀ u : Nat, (fixedDigits w u).length = w := by
  induction w with
  | zero => intro u; rfl
  | succ w ih => intro u; simp [fixedDigits, ih]

theorem fixedDigits_all (w : Nat) :
    ∀ u : Nat, (fixedDigits w u).all (fun c => 48 ≤ c.toNat && c.toNat ≤ 57) = true := by
  induction w with
  | zero => intro u; rfl
  | succ w ih =>
    intro u
    have hd : u % 10 < 10 := Nat.mod_lt u (by omega)
    simp only [fixedDigits, List.all_append, ih, Bool.true_and, List.all_cons, List.all_nil,
      Bool.and_true, Bool.and_eq_true, decide_eq_true_eq, big.digitByte_toNat (u % 10) hd]
    omega

theorem decimalValue_fixedDigits (w : Nat) :
    ∀ u : Nat, decimalValue (fixedDigits w u) = u % 10 ^ w := by
  induction w with
  | zero => intro u; simp [fixedDigits, decimalValue, Nat.mod_one]
  | succ w ih =>
    intro u
    have hd : u % 10 < 10 := Nat.mod_lt u (by omega)
    rw [fixedDigits, decimalValue_append, ih, big.digitByte_toNat (u % 10) hd]
    have h1 : u % 10 ^ (w + 1) = (u / 10 % 10 ^ w) * 10 + u % 10 := by
      rw [pow_succ, Nat.mul_comm (10 ^ w) 10, Nat.mod_mul, Nat.add_comm, Nat.mul_comm]
    omega

theorem parseUint_fixedDigits (w u lo hi : Nat) (hu : u < 10 ^ w) (hlo : lo ≤ u)
    (hhi : u ≤ hi) : parseUint (fixedDigits w u) lo hi = some u := by
  unfold parseUint
  rw [fixedDigits_all, decimalValue_fixedDigits, Nat.mod_eq_of_lt hu]
  simp only [if_true]
  rw [if_neg (by omega)]

theorem fixedDigits_two (u : Nat) :
    fixedDigits 2 u = [big.digitByte (u / 10 % 10), big.digitByte (u % 10)] := by
  simp [fixedDigits]

theorem fixedDigits_four (u : Nat) :
    fixedDigits 4 u = [big.digitByte (u / 10 / 10 / 10 % 10), big.digitByte (u / 10 / 10 % 10),
      big.digitByte (u / 10 % 10), big.digitByte (u % 10)] := by
  simp [fixedDigits]

theorem appendInt_nonneg (b : Bytes) (u w : Nat) (h : u < 10 ^ w) :
    appendInt b (u : Int) w = b ++ fixedDigits w u := by
  have h0 : ¬ ((u : Int) < 0) := by omega
  simp [appendInt, h0, h]

end time

theorem decimalValue_zeros (ds : Bytes) (h : ∀ x ∈ ds, x = 48) : decimalValue ds = 0 := by
  induction ds using List.reverseRecOn with
  | nil => rfl
  | append_singleton ds d ih =>
    have hd : d = 48 := h d (by simp)
    have hds : ∀ x ∈ ds, x = 48 := fun x hx => h x (by simp [hx])
    rw [decimalValue_append, ih hds, hd]
    decide

theorem rdropWhile_append_of_ne_nil {α : Type} (p : α → Bool) (xs : List α) :
    ∀ ys : List α, ys.rdropWhile p ≠ [] → (xs ++ ys).rdropWhile p = xs ++ ys.rdropWhile p := by
  intro ys
  induction ys using List.reverseRecOn with
  | nil => intro h; exact absurd (List.rdropWhile_nil p) h
  | append_singleton ys y ih =>
    intro h
    by_cases hp : p y = true
    · rw [List.rdropWhile_concat_pos _ _ _ hp] at h ⊢
      rw [← List.append_assoc, List.rdropWhile_concat_pos _ _ _ hp]
      exact ih h
    · rw [List.rdropWhile_concat_neg _ _ _ hp, ← List.append_assoc,
        List.rdropWhile_concat_neg _ _ _ hp]

theorem rdropWhile_eq_append_replicate (c : UInt8) (l : Bytes) :
    ∃ j : Nat, l = l.rdropWhile (fun x => x = c) ++ List.replicate j c := by
  induction l using List.reverseRecOn with
  | nil => exact ⟨0, by simp⟩
  | append_singleton l x ih =>
    by_cases hx : x = c
    · obtain ⟨j, hj⟩ := ih
      refine ⟨j + 1, ?_⟩
      rw [List.rdropWhile_concat_pos _ _ _ (by simpa using hx), List.replicate_succ',
        ← List.append_assoc, ← hj, hx]
    · refine ⟨0, ?_⟩
      rw [List.rdropWhile_concat_neg _ _ _ (by simpa using hx)]
      simp

namespace time

/-- The trimmed nanosecond digits: between one and nine digits, the last of
which is not a zero, that scale back to the nanoseconds. -/
theorem trimmed_digits (n : Nat) (h0 : n ≠ 0) (h : n < 10 ^ 9) :
    (fixedDigits 9 n).rdropWhile (fun c => c = 48) ≠ [] ∧
    ((fixedDigits 9 n).rdropWhile (fun c => c = 48)).length ≤ 9 ∧
    ((fixedDigits 9 n).rdropWhile (fun c => c = 48)).all
      (fun c => 48 ≤ c.toNat && c.toNat ≤ 57) = true ∧
    decimalValue ((fixedDigits 9 n).rdropWhile (fun c => c = 48))
      * 10 ^ (9 - ((fixedDigits 9 n).rdropWhile (fun c => c = 48)).length) = n := by
  obtain ⟨j, hj⟩ := rdropWhile_eq_append_replicate 48 (fixedDigits 9 n)
  have hval : decimalValue (fixedDigits 9 n) = n := by
    rw [decimalValue_fixedDigits, Nat.mod_eq_of_lt h]
  have hlen := fixedDigits_length 9 n
  have hall := fixedDigits_all 9 n
  generalize (fixedDigits 9 n).rdropWhile (fun c => c = 48) = t at hj ⊢
  rw [hj] at hval hlen hall
  rw [decimalValue_cons_append, decimalValue_zeros (List.replicate j 48)
    (fun x hx => (List.mem_replicate.mp hx).2)] at hval
  simp only [List.length_append, List.length_replicate] at hlen
  simp only [List.length_replicate, Nat.add_zero] at hval
  rw [List.all_append, Bool.and_eq_true] at hall
  refine ⟨?_, by omega, hall.1, ?_⟩
  · intro ht
    rw [ht] at hval
    simp [decimalValue] at hval
    exact h0 hval.symm
  · have : 9 - t.length = j := by omega
    rw [this]
    exact hval

theorem appendNano_eq (b : Bytes) (n : Nat) (h : n < 10 ^ 9) :
    appendNano b n = b ++ fractionText n := by
  by_cases h0 : n = 0
  · simp [appendNano, fractionText, h0]
  · obtain ⟨hne, _, hall, _⟩ := trimmed_digits n h0 h
    have happ : appendInt (b ++ [46]) (n : Int) 9 = (b ++ [46]) ++ fixedDigits 9 n :=
      appendInt_nonneg (b ++ [46]) n 9 h
    have htrim : ((b ++ [46]) ++ fixedDigits 9 n).rdropWhile (fun c => c = 48)
        = (b ++ [46]) ++ (fixedDigits 9 n).rdropWhile (fun c => c = 48) :=
      rdropWhile_append_of_ne_nil _ _ _ hne
    have hlast : ((b ++ [46]) ++ (fixedDigits 9 n).rdropWhile (fun c => c = 48)).getLast?
        ≠ some 46 := by
      rw [List.getLast?_append_of_ne_nil _ hne]
      intro hl
      have hmem := List.mem_of_getLast?_eq_some hl
      have hd := List.all_eq_true.mp hall 46 hmem
      revert hd
      decide
    simp only [appendNano, h0, if_false, happ, htrim, if_neg hlast, fractionText]
    simp

end time

namespace time

theorem digitByte_mod_toNat (u : Nat) : (big.digitByte (u % 10)).toNat = 48 + u % 10 :=
  big.digitByte_toNat (u % 10) (Nat.mod_lt u (by omega))

theorem appendInt_append (b : Bytes) (x : Int) (w : Nat) :
    appendInt b x w = b ++ appendInt [] x w := by
  unfold appendInt
  by_cases h : x < 0 <;> simp [h]

theorem appendZone_append (b : Bytes) (offset : Int) :
    appendZone b offset = b ++ appendZone [] offset := by
  unfold appendZone
  by_cases h0 : offset = 0
  · simp [h0]
  · simp only [h0, if_false]
    rw [appendInt_append, appendInt_append (if Int.tdiv offset 60 < 0 then b ++ [45] else b ++ [43]),
      appendInt_append (appendInt _ _ _ ++ [58]),
      appendInt_append (if Int.tdiv offset 60 < 0 then [] ++ [45] else [] ++ [43])]
    by_cases hz : Int.tdiv offset 60 < 0 <;> simp [hz]

theorem daysIn_le (month : Nat) (year : Int) : daysIn month year ≤ 31 := by
  unfold daysIn
  split_ifs <;> omega

/-- The bounds on the fields of a valid time. -/
theorem Time.valid_bounds (t : Time) (hv : t.valid = true) :
    1 ≤ t.month ∧ t.month ≤ 12 ∧ 1 ≤ t.day ∧ t.day ≤ daysIn t.month t.year ∧ t.hour < 24 ∧
      t.minute < 60 ∧ t.second < 60 ∧ t.nanosecond < 10 ^ 9 := by
  simp only [Time.valid, Bool.and_eq_true, decide_eq_true_eq] at hv
  obtain ⟨⟨⟨⟨⟨⟨⟨h1, h2⟩, h3⟩, h4⟩, h5⟩, h6⟩, h7⟩, h8⟩ := hv
  exact ⟨h1, h2, h3, h4, h5, h6, h7, by norm_num; exact h8⟩

/-- The text `appendFormatRFC3339` writes for a valid time with a year of at
most four digits. -/
theorem appendFormatRFC3339_eq (t : Time) (hv : t.valid = true) (hy0 : 0 ≤ t.year)
    (hy : t.year ≤ 9999) :
    appendFormatRFC3339 t [] =
      dateTimeText t ++ fractionText t.nanosecond ++ appendZone [] t.offset := by
  obtain ⟨_, hm, _, hd, hh, hmi, hs, hn⟩ := Time.valid_bounds t hv
  have hdl := daysIn_le t.month t.year
  have hyear : appendInt [] t.year 4 = fixedDigits 4 t.year.natAbs := by
    have h1 : ¬ (t.year < 0) := by omega
    have h2 : t.year.natAbs < 10 ^ 4 := by omega
    simp only [appendInt, h1, if_false, h2, if_true, List.nil_append]
  unfold appendFormatRFC3339
  rw [appendZone_append, appendNano_eq _ _ hn, hyear,
    appendInt_nonneg _ t.month 2 (by omega), appendInt_nonneg _ t.day 2 (by omega),
    appendInt_nonneg _ t.hour 2 (by omega), appendInt_nonneg _ t.minute 2 (by omega),
    appendInt_nonneg _ t.second 2 (by omega)]
  simp [dateTimeText]

theorem dateTimeText_length (t : Time) : (dateTimeText t).length = 19 := by
  simp [dateTimeText, fixedDigits_length]

theorem dateTimeText_getD_four (t : Time) (rest : Bytes) :
    (dateTimeText t ++ rest).getD 4 0 = 45 := by
  simp [dateTimeText, fixedDigits_four, fixedDigits_two]

/-- A valid time at offset zero with a year from 0 to 9999 marshals to its
date and clock reading, its fraction and `Z`. -/
theorem MarshalText_utc (t : Time) (hv : t.valid = true) (hy0 : 0 ≤ t.year)
    (hy : t.year ≤ 9999) (hoff : t.offset = 0) :
    t.MarshalText = Except.ok (dateTimeText t ++ fractionText t.nanosecond ++ [90]) := by
  have htext := appendFormatRFC3339_eq t hv hy0 hy
  have hz : appendZone [] t.offset = [90] := by simp [appendZone, hoff]
  rw [hz] at htext
  have h4 : (appendFormatRFC3339 t []).getD 4 0 = 45 := by
    rw [htext, List.append_assoc]
    exact dateTimeText_getD_four t _
  have hlast : (appendFormatRFC3339 t []).getLast? = some 90 := by
    rw [htext]
    simp
  simp only [Time.MarshalText, appendStrictRFC3339, h4, hlast, ne_eq, not_true_eq_false,
    if_false, false_and]
  rw [htext]

theorem isSecondPrecisionText_dateTimeText (t : Time) :
    isSecondPrecisionText (dateTimeText t ++ [90]) = true := by
  simp [isSecondPrecisionText, dateTimeText, fixedDigits_four, fixedDigits_two,
    digitByte_mod_toNat]
  omega

end time

namespace time

theorem tdiv_sixty (a : Int) :
    Int.tdiv a 60 = if 0 ≤ a then a / 60 else -((-a) / 60) := by
  by_cases h : 0 ≤ a
  · rw [if_pos h, Int.tdiv_eq_ediv h (by omega)]
  · rw [if_neg h]
    have h1 : Int.tdiv a 60 = -(Int.tdiv (-a) 60) := by rw [Int.neg_tdiv, neg_neg]
    rw [h1, Int.tdiv_eq_ediv (by omega) (by omega)]

theorem tdiv_sixty_neg_iff (a : Int) : Int.tdiv a 60 < 0 ↔ a ≤ -60 := by
  rw [tdiv_sixty]
  split_ifs <;> omega

theorem tdiv_sixty_natAbs (a : Int) : (Int.tdiv a 60).natAbs = a.natAbs / 60 := by
  rw [tdiv_sixty]
  split_ifs <;> omega

/-- The zone text of a non-zero offset of less than a hundred hours: a sign,
two digits of hours, a colon and two digits of minutes. -/
theorem appendZone_eq (offset : Int) (h0 : offset ≠ 0) (hh : offset.natAbs / 60 / 60 < 100) :
    appendZone [] offset =
      (if offset ≤ -60 then 45 else 43) ::
        (fixedDigits 2 (offset.natAbs / 60 / 60) ++ 58 :: fixedDigits 2 (offset.natAbs / 60 % 60)) := by
  have hm : offset.natAbs / 60 % 60 < 10 ^ 2 := by
    have := Nat.mod_lt (offset.natAbs / 60) (by omega : 0 < 60)
    omega
  simp only [appendZone, h0, if_false, tdiv_sixty_natAbs, tdiv_sixty_neg_iff]
  rw [appendInt_nonneg _ _ 2 hm, appendInt_nonneg _ _ 2 (by omega)]
  by_cases hs : offset ≤ -60 <;> simp [hs]

theorem appendZone_head (offset : Int) :
    ∃ (c : UInt8) (rest : Bytes), appendZone [] offset = c :: rest ∧ (c = 90 ∨ c = 45 ∨ c = 43) := by
  by_cases h0 : offset = 0
  · exact ⟨90, [], by simp [appendZone, h0], Or.inl rfl⟩
  · simp only [appendZone, h0, if_false]
    rw [appendInt_append, appendInt_append (if Int.tdiv offset 60 < 0 then [] ++ [45] else [] ++ [43])]
    by_cases hs : Int.tdiv offset 60 < 0
    · exact ⟨45, _, by simp only [hs, if_true, List.nil_append, List.cons_append,
        List.append_assoc]; rfl, Or.inr (Or.inl rfl)⟩
    · exact ⟨43, _, by simp only [hs, if_false, List.nil_append, List.cons_append,
        List.append_assoc]; rfl, Or.inr (Or.inr rfl)⟩

/-- Reading back the zone text of an offset of whole minutes below 24 hours
gives the offset. -/
theorem parseZone_appendZone (offset : Int) (hmin : offset % 60 = 0)
    (hh : offset.natAbs / 60 / 60 < 24) : parseZone (appendZone [] offset) = some offset := by
  by_cases h0 : offset = 0
  · simp [appendZone, h0, parseZone]
  · rw [appendZone_eq offset h0 (by omega)]
    have hm : offset.natAbs / 60 % 60 < 60 := Nat.mod_lt _ (by omega)
    have hne : ∀ (c : UInt8) (l : Bytes),
        c :: (fixedDigits 2 (offset.natAbs / 60 / 60) ++ 58 :: l) ≠ [90] := by
      intro c l h
      have := congrArg List.length h
      simp [fixedDigits_length] at this
    have hs1 : ∀ c : UInt8, slice (c :: (fixedDigits 2 (offset.natAbs / 60 / 60) ++
        58 :: fixedDigits 2 (offset.natAbs / 60 % 60))) 1 3
        = fixedDigits 2 (offset.natAbs / 60 / 60) := by
      intro c
      simp [slice, fixedDigits_two]
    have hs2 : ∀ c : UInt8, slice (c :: (fixedDigits 2 (offset.natAbs / 60 / 60) ++
        58 :: fixedDigits 2 (offset.natAbs / 60 % 60))) 4 6
        = fixedDigits 2 (offset.natAbs / 60 % 60) := by
      intro c
      simp [slice, fixedDigits_two]
    have hp1 := parseUint_fixedDigits 2 (offset.natAbs / 60 / 60) 0 23 (by omega) (by omega)
      (by omega)
    have hp2 := parseUint_fixedDigits 2 (offset.natAbs / 60 % 60) 0 59 (by omega) (by omega)
      (by omega)
    unfold parseZone
    rw [if_neg (hne _ _), hs1, hs2, hp1, hp2]
    dsimp only
    generalize hv : (offset.natAbs / 60 / 60 * 60 + offset.natAbs / 60 % 60) * 60 = v
    by_cases hs : offset ≤ -60
    · have hval : -(v : Int) = offset := by omega
      simp only [hs, if_true]
      simp [fixedDigits_length, fixedDigits_two, hval]
    · have hval : (v : Int) = offset := by omega
      simp only [hs, if_false]
      simp [fixedDigits_length, fixedDigits_two, hval]

end time

theorem takeWhile_append_stop {α : Type} (p : α → Bool) (c : α) (rest : List α)
    (hc : p c = false) :
    ∀ l : List α, l.all p = true → (l ++ c :: rest).takeWhile p = l := by
  intro l
  induction l with
  | nil => intro _; simp [List.takeWhile, hc]
  | cons a l ih =>
    intro h
    simp only [List.all_cons, Bool.and_eq_true] at h
    simp [List.takeWhile, h.1, ih h.2]

namespace time

/-- Reading back the fraction written for the nanoseconds, in front of a zone,
gives the nanoseconds and leaves the zone. -/
theorem parseFraction_fractionText (n : Nat) (hn : n < 10 ^ 9) (c : UInt8) (rest : Bytes)
    (hc : c = 90 ∨ c = 45 ∨ c = 43) :
    parseFraction (fractionText n ++ c :: rest) = (n, c :: rest) := by
  have hc46 : c ≠ 46 := by
    rcases hc with h | h | h <;> rw [h] <;> decide
  have hcd : (fun c : UInt8 => decide (48 ≤ c.toNat) && decide (c.toNat ≤ 57)) c = false := by
    rcases hc with h | h | h <;> rw [h] <;> decide
  by_cases h0 : n = 0
  · simp [fractionText, h0, parseFraction, hc46]
  · obtain ⟨hne, hlen, hall, hval⟩ := trimmed_digits n h0 hn
    simp only [fractionText, h0, if_false]
    generalize (fixedDigits 9 n).rdropWhile (fun c => c = 48) = t at hne hlen hall hval
    cases t with
    | nil => exact absurd rfl hne
    | cons d0 tl =>
      rw [List.all_cons, Bool.and_eq_true] at hall
      have htake := takeWhile_append_stop _ c rest hcd tl hall.2
      have hd0 : isDigit (46 :: d0 :: (tl ++ c :: rest)) 1 = true := by
        simp only [isDigit, List.get?_cons_succ, List.get?_cons_zero]
        exact hall.1
      simp only [List.length_cons] at hlen hval
      have hk : ¬ (10 < 2 + tl.length) := by omega
      have hslice : slice (46 :: d0 :: (tl ++ c :: rest)) 1 (2 + tl.length) = d0 :: tl := by
        have h1 : 2 + tl.length - 1 = (d0 :: tl).length := by
          simp only [List.length_cons]
          omega
        simp only [slice, List.drop_succ_cons, List.drop_zero, h1]
        rw [← List.cons_append]
        exact List.take_left' rfl
      have hdrop : (46 :: d0 :: (tl ++ c :: rest)).drop (2 + tl.length) = c :: rest := by
        have h1 : 2 + tl.length = (46 :: d0 :: tl).length := by
          simp only [List.length_cons]
          omega
        rw [h1, ← List.cons_append, ← List.cons_append]
        exact List.drop_left' rfl
      have hdrop2 : (46 :: d0 :: (tl ++ c :: rest)).drop 2 = tl ++ c :: rest := rfl
      have hlen2 : 2 ≤ (46 :: d0 :: (tl ++ c :: rest)).length := by
        simp only [List.length_cons]
        omega
      have hexp : 10 - (2 + tl.length) = 9 - (tl.length + 1) := by omega
      simp only [List.cons_append]
      unfold parseFraction
      rw [hdrop2, htake, if_pos ⟨hlen2, rfl, hd0⟩, hdrop]
      simp only [parseNanoseconds, hk, if_false, hslice, hexp, hval]

end time

namespace time

theorem slice_dateTimeText (t : Time) (rest : Bytes) :
    slice (dateTimeText t ++ rest) 0 4 = fixedDigits 4 t.year.natAbs ∧
    slice (dateTimeText t ++ rest) 5 7 = fixedDigits 2 t.month ∧
    slice (dateTimeText t ++ rest) 8 10 = fixedDigits 2 t.day ∧
    slice (dateTimeText t ++ rest) 11 13 = fixedDigits 2 t.hour ∧
    slice (dateTimeText t ++ rest) 14 16 = fixedDigits 2 t.minute ∧
    slice (dateTimeText t ++ rest) 17 19 = fixedDigits 2 t.second := by
  simp [slice, dateTimeText, fixedDigits_four, fixedDigits_two]

theorem getD_dateTimeText (t : Time) (rest : Bytes) :
    (dateTimeText t ++ rest).getD 4 0 = 45 ∧ (dateTimeText t ++ rest).getD 7 0 = 45 ∧
    (dateTimeText t ++ rest).getD 10 0 = 84 ∧ (dateTimeText t ++ rest).getD 13 0 = 58 ∧
    (dateTimeText t ++ rest).getD 16 0 = 58 := by
  simp [dateTimeText, fixedDigits_four, fixedDigits_two]

/-- Reading back the text of a valid time with a year from 0 to 9999 and an
offset of whole minutes below 24 hours gives the time. -/
theorem parseRFC3339_text (t : Time) (hv : t.valid = true) (hy0 : 0 ≤ t.year)
    (hy : t.year ≤ 9999) (hmin : t.offset % 60 = 0) (hh : t.offset.natAbs / 60 / 60 < 24) :
    parseRFC3339 (dateTimeText t ++ fractionText t.nanosecond ++ appendZone [] t.offset)
      = some t := by
  obtain ⟨hm1, hm, hd1, hd, hhr, hmi, hs, hn⟩ := Time.valid_bounds t hv
  have hdl := daysIn_le t.month t.year
  obtain ⟨c, rest, hzone, hc⟩ := appendZone_head t.offset
  have hyc : ((t.year.natAbs : Nat) : Int) = t.year := by omega
  obtain ⟨s1, s2, s3, s4, s5, s6⟩ :=
    slice_dateTimeText t (fractionText t.nanosecond ++ appendZone [] t.offset)
  obtain ⟨g1, g2, g3, g4, g5⟩ :=
    getD_dateTimeText t (fractionText t.nanosecond ++ appendZone [] t.offset)
  have hlen : ¬ ((dateTimeText t ++ (fractionText t.nanosecond ++ appendZone [] t.offset)).length
      < 19) := by
    rw [List.length_append, dateTimeText_length]
    omega
  have hdrop : (dateTimeText t ++ (fractionText t.nanosecond ++ appendZone [] t.offset)).drop 19
      = fractionText t.nanosecond ++ appendZone [] t.offset :=
    List.drop_left' (dateTimeText_length t)
  have hfrac : parseFraction (fractionText t.nanosecond ++ appendZone [] t.offset)
      = (t.nanosecond, appendZone [] t.offset) := by
    rw [hzone]
    exact parseFraction_fractionText t.nanosecond hn c rest hc
  have hz := parseZone_appendZone t.offset hmin hh
  have p1 := parseUint_fixedDigits 4 t.year.natAbs 0 9999 (by omega) (by omega) (by omega)
  have p2 := parseUint_fixedDigits 2 t.month 1 12 (by omega) hm1 hm
  have p3 := parseUint_fixedDigits 2 t.day 1 (daysIn t.month t.year) (by omega) hd1 hd
  have p4 := parseUint_fixedDigits 2 t.hour 0 23 (by omega) (by omega) (by omega)
  have p5 := parseUint_fixedDigits 2 t.minute 0 59 (by omega) (by omega) (by omega)
  have p6 := parseUint_fixedDigits 2 t.second 0 59 (by omega) (by omega) (by omega)
  rw [List.append_assoc]
  unfold parseRFC3339
  rw [if_neg hlen, s1, s2, p1, p2]
  dsimp only
  rw [s3, s4, s5, s6, hyc, p3, p4, p5, p6]
  dsimp only
  rw [if_pos ⟨g1, g2, g3, g4, g5⟩, hdrop, hfrac]
  dsimp only
  rw [hz]

end time

theorem decimalValue_lt (ds : Bytes)
    (hall : ds.all (fun c => 48 ≤ c.toNat && c.toNat ≤ 57) = true) :
    decimalValue ds < 10 ^ ds.length := by
  induction ds using List.reverseRecOn with
  | nil => simp [decimalValue]
  | append_singleton ds d ih =>
    rw [List.all_append, Bool.and_eq_true] at hall
    have hd : 48 ≤ d.toNat ∧ d.toNat ≤ 57 := by
      have := hall.2
      simp only [List.all_cons, List.all_nil, Bool.and_true, Bool.and_eq_true,
        decide_eq_true_eq] at this
      exact this
    have h1 := ih hall.1
    rw [decimalValue_append, List.length_append, List.length_singleton, pow_succ]
    omega

theorem getD_of_all (p : UInt8 → Bool) (X l : Bytes) (i : Nat) (hi : i < X.length)
    (hall : X.all p = true) : p ((X ++ l).getD i 0) = true := by
  rw [List.getD_append X l 0 i hi, List.getD_eq_getElem X 0 hi]
  exact List.all_eq_true.mp hall _ (List.getElem_mem hi)

namespace time

/-- The digits `appendInt` writes: after the sign, at least `width` digits, and
more than `width` when the number does not fit. -/
theorem appendInt_digits (x : Int) (w : Nat) :
    ∃ X : Bytes, appendInt [] x w = (if x < 0 then [45] else []) ++ X ∧
      X.all (fun c => 48 ≤ c.toNat && c.toNat ≤ 57) = true ∧ w ≤ X.length ∧
      (10 ^ w ≤ x.natAbs → w < X.length) := by
  by_cases hfit : x.natAbs < 10 ^ w
  · refine ⟨fixedDigits w x.natAbs, ?_, fixedDigits_all w _, ?_, ?_⟩
    · simp only [appendInt, hfit, if_true]
      by_cases hx : x < 0 <;> simp [hx]
    · rw [fixedDigits_length]
    · intro h
      omega
  · have hpos : 1 ≤ x.natAbs := by
      have : 0 < 10 ^ w := Nat.pow_pos (by omega)
      omega
    obtain ⟨ds, hds, hdig, hval, _⟩ := big.itoaDigits_spec x.natAbs x.natAbs [] hpos (le_refl _)
    simp only [isDigitString, Bool.and_eq_true] at hdig
    have hlt := decimalValue_lt ds hdig.2
    rw [hval] at hlt
    have hlen : w < ds.length := by
      by_contra hc
      have : 10 ^ ds.length ≤ 10 ^ w := Nat.pow_le_pow_right (by omega) (by omega)
      omega
    refine ⟨ds, ?_, hdig.2, by omega, fun _ => hlen⟩
    simp only [appendInt, hfit, if_false, hds, List.append_nil]
    by_cases hx : x < 0 <;> simp [hx]

/-- The text of a valid time starts with the year as `appendInt` writes it,
followed by `-`. -/
theorem appendFormatRFC3339_year (t : Time) (hv : t.valid = true) :
    ∃ tail : Bytes, appendFormatRFC3339 t [] = appendInt [] t.year 4 ++ 45 :: tail := by
  obtain ⟨_, hm, _, hd, hh, hmi, hs, hn⟩ := Time.valid_bounds t hv
  have hdl := daysIn_le t.month t.year
  refine ⟨fixedDigits 2 t.month ++ [45] ++ fixedDigits 2 t.day ++ [84] ++ fixedDigits 2 t.hour
    ++ [58] ++ fixedDigits 2 t.minute ++ [58] ++ fixedDigits 2 t.second
    ++ fractionText t.nanosecond ++ appendZone [] t.offset, ?_⟩
  unfold appendFormatRFC3339
  rw [appendZone_append, appendNano_eq _ _ hn,
    appendInt_nonneg _ t.month 2 (by omega), appendInt_nonneg _ t.day 2 (by omega),
    appendInt_nonneg _ t.hour 2 (by omega), appendInt_nonneg _ t.minute 2 (by omega),
    appendInt_nonneg _ t.second 2 (by omega)]
  simp

/-- A year outside 0 to 9999 puts a digit where the `-` after the year is
expected. -/
theorem year_out_of_range (t : Time) (hv : t.valid = true)
    (hy : ¬ (0 ≤ t.year ∧ t.year ≤ 9999)) : (appendFormatRFC3339 t []).getD 4 0 ≠ 45 := by
  obtain ⟨tail, htext⟩ := appendFormatRFC3339_year t hv
  obtain ⟨X, hX, hall, hlen, hbig⟩ := appendInt_digits t.year 4
  have hnot45 : ∀ c : UInt8,
      (fun c : UInt8 => decide (48 ≤ c.toNat) && decide (c.toNat ≤ 57)) c = true → c ≠ 45 := by
    intro c hc h45
    rw [h45] at hc
    revert hc
    decide
  rw [htext, hX]
  by_cases hneg : t.year < 0
  · simp only [hneg, if_true, List.singleton_append, List.cons_append, List.getD_cons_succ]
    exact hnot45 _ (getD_of_all _ X _ 3 (by omega) hall)
  · have h5 : 4 < X.length := hbig (by omega)
    simp only [hneg, if_false, List.nil_append]
    exact hnot45 _ (getD_of_all _ X _ 4 h5 hall)

end time

namespace time

theorem num2_digits : ∀ hh : Fin 100,
    ((24 : UInt8) ≤ 10 * (big.digitByte (hh.val / 10 % 10) - 48)
      + (big.digitByte (hh.val % 10) - 48)) ↔ 24 ≤ hh.val := by
  decide

theorem num2_fixedDigits (hh : Nat) (h : hh < 100) (l : Bytes) :
    (24 : UInt8) ≤ num2 (fixedDigits 2 hh ++ l) ↔ 24 ≤ hh := by
  have := num2_digits ⟨hh, h⟩
  simpa [num2, fixedDigits_two] using this

/-- The shape of the zone text of a non-zero offset: a sign, the digits of
the hours, a colon, two digits of minutes. -/
theorem appendZone_shape (offset : Int) (h0 : offset ≠ 0) :
    ∃ (sign : UInt8) (H : Bytes),
      appendZone [] offset = sign :: (H ++ 58 :: fixedDigits 2 (offset.natAbs / 60 % 60)) ∧
      (sign = 45 ∨ sign = 43) ∧ H.all (fun c => 48 ≤ c.toNat && c.toNat ≤ 57) = true ∧
      2 ≤ H.length ∧ (offset.natAbs / 60 / 60 < 100 → H = fixedDigits 2 (offset.natAbs / 60 / 60)) ∧
      (100 ≤ offset.natAbs / 60 / 60 → 2 < H.length) := by
  have hm : offset.natAbs / 60 % 60 < 10 ^ 2 := by
    have := Nat.mod_lt (offset.natAbs / 60) (by omega : 0 < 60)
    omega
  obtain ⟨H, hH, hall, hlen, hbig⟩ := appendInt_digits ((offset.natAbs / 60 / 60 : Nat) : Int) 2
  have hnn : ¬ (((offset.natAbs / 60 / 60 : Nat) : Int) < 0) := by omega
  rw [if_neg hnn, List.nil_append] at hH
  refine ⟨if Int.tdiv offset 60 < 0 then 45 else 43, H, ?_, ?_, hall, hlen, ?_, ?_⟩
  · simp only [appendZone, h0, if_false, tdiv_sixty_natAbs]
    rw [appendInt_nonneg _ _ 2 hm, appendInt_append, hH]
    by_cases hs : Int.tdiv offset 60 < 0 <;> simp [hs]
  · by_cases hs : Int.tdiv offset 60 < 0 <;> simp [hs]
  · intro hlt
    rw [← hH, appendInt_nonneg [] _ 2 (by omega), List.nil_append]
  · intro hge
    exact hbig (by
      have : ((offset.natAbs / 60 / 60 : Nat) : Int).natAbs = offset.natAbs / 60 / 60 := by omega
      rw [this]
      omega)

/-- The places the strict check looks at, in a text that ends with a zone. -/
theorem zone_places (P H M : Bytes) (sign : UInt8) (hM : M.length = 2)
    (hMd : M.all (fun c => 48 ≤ c.toNat && c.toNat ≤ 57) = true)
    (hH : H.all (fun c => 48 ≤ c.toNat && c.toNat ≤ 57) = true) :
    (P ++ sign :: (H ++ 58 :: M)).getLast? ≠ some 90 ∧
    (H.length = 2 →
      (P ++ sign :: (H ++ 58 :: M)).getD ((P ++ sign :: (H ++ 58 :: M)).length - 6) 0 = sign ∧
      (P ++ sign :: (H ++ 58 :: M)).drop ((P ++ sign :: (H ++ 58 :: M)).length - 5)
        = H ++ 58 :: M) ∧
    (2 < H.length →
      (fun c : UInt8 => decide (48 ≤ c.toNat) && decide (c.toNat ≤ 57))
        ((P ++ sign :: (H ++ 58 :: M)).getD ((P ++ sign :: (H ++ 58 :: M)).length - 6) 0)
        = true) := by
  have hlen : (P ++ sign :: (H ++ 58 :: M)).length = P.length + H.length + 4 := by
    simp only [List.length_append, List.length_cons, hM]
    omega
  refine ⟨?_, ?_, ?_⟩
  · match M, hM, hMd with
    | [m1, m0], _, hMd =>
      intro hl
      have h1 : (P ++ sign :: (H ++ [58, m1, m0])).getLast? = some m0 := by
        rw [List.getLast?_append_of_ne_nil _ (by simp)]
        have : sign :: (H ++ [58, m1, m0]) = (sign :: (H ++ [58, m1])) ++ [m0] := by simp
        rw [this, List.getLast?_append_of_ne_nil _ (by simp)]
        rfl
      rw [h1] at hl
      simp only [Option.some.injEq] at hl
      rw [hl] at hMd
      simp only [List.all_cons, List.all_nil, Bool.and_true, Bool.and_eq_true] at hMd
      have h90 := hMd.2
      revert h90
      decide
  · intro h2
    rw [hlen, h2]
    constructor
    · have : P.length + 2 + 4 - 6 = P.length := by omega
      rw [this, List.getD_append_right P _ 0 P.length (le_refl _)]
      simp
    · have : P.length + 2 + 4 - 5 = (P ++ [sign]).length := by simp
      rw [this]
      have h3 : P ++ sign :: (H ++ 58 :: M) = (P ++ [sign]) ++ (H ++ 58 :: M) := by simp
      rw [h3]
      exact List.drop_left' rfl
  · intro h3
    rw [hlen]
    have h4 : P ++ sign :: (H ++ 58 :: M) = (P ++ [sign]) ++ (H ++ 58 :: M) := by simp
    have h5 : P.length + H.length + 4 - 6 = (P ++ [sign]).length + (H.length - 3) := by
      simp only [List.length_append, List.length_singleton]
      omega
    rw [h4, h5, List.getD_append_right _ _ 0 _ (by omega)]
    have h6 : (P ++ [sign]).length + (H.length - 3) - (P ++ [sign]).length = H.length - 3 := by
      omega
    rw [h6]
    exact getD_of_all _ H _ (H.length - 3) (by omega) hH

end time

namespace time

theorem not_digit_of_sign (sign : UInt8) (h : sign = 45 ∨ sign = 43) :
    ¬ (48 ≤ sign.toNat ∧ sign.toNat ≤ 57) := by
  rcases h with h | h <;> rw [h] <;> decide

/-- A valid time with a year from 0 to 9999 and a zone offset below 24 hours
marshals to its date and clock reading, its fraction and its zone. -/
theorem MarshalText_eq (t : Time) (hv : t.valid = true) (hy0 : 0 ≤ t.year)
    (hy : t.year ≤ 9999) (hh : t.offset.natAbs / 60 / 60 < 24) :
    t.MarshalText
      = Except.ok (dateTimeText t ++ fractionText t.nanosecond ++ appendZone [] t.offset) := by
  by_cases h0 : t.offset = 0
  · rw [MarshalText_utc t hv hy0 hy h0]
    simp [appendZone, h0]
  · have htext := appendFormatRFC3339_eq t hv hy0 hy
    obtain ⟨sign, H, hZ, hsign, hHd, _, hHfix, _⟩ := appendZone_shape t.offset h0
    have hHeq := hHfix (by omega)
    have hplaces := zone_places (dateTimeText t ++ fractionText t.nanosecond) H
      (fixedDigits 2 (t.offset.natAbs / 60 % 60)) sign (fixedDigits_length 2 _)
      (fixedDigits_all 2 _) hHd
    have hHlen : H.length = 2 := by rw [hHeq, fixedDigits_length]
    obtain ⟨hlast, hsame, _⟩ := hplaces
    obtain ⟨hc, hdrop⟩ := hsame hHlen
    rw [hZ] at htext
    have h4 : (appendFormatRFC3339 t []).getD 4 0 = 45 := by
      rw [htext, List.append_assoc]
      exact dateTimeText_getD_four t _
    have hnum : ¬ ((24 : UInt8) ≤ num2 (H ++ 58 :: fixedDigits 2 (t.offset.natAbs / 60 % 60))) := by
      rw [hHeq, num2_fixedDigits _ (by omega)]
      omega
    have hcheck : ¬ ((appendFormatRFC3339 t []).getLast? ≠ some 90 ∧
        ((48 ≤ ((appendFormatRFC3339 t []).getD ((appendFormatRFC3339 t []).length - 6) 0).toNat ∧
            ((appendFormatRFC3339 t []).getD ((appendFormatRFC3339 t []).length - 6) 0).toNat
              ≤ 57) ∨
          24 ≤ num2 ((appendFormatRFC3339 t []).drop
            ((appendFormatRFC3339 t []).length - 5)))) := by
      rw [htext, hc, hdrop]
      intro hcon
      rcases hcon.2 with hd | hn
      · exact not_digit_of_sign sign hsign hd
      · exact hnum hn
    simp only [Time.MarshalText, appendStrictRFC3339, h4, ne_eq, not_true_eq_false, if_false]
    rw [if_neg hcheck, htext, hZ]

/-- A zone offset of 24 hours or more makes `MarshalText` fail. -/
theorem MarshalText_zone_error (t : Time) (hv : t.valid = true) (hy0 : 0 ≤ t.year)
    (hy : t.year ≤ 9999) (hh : 24 ≤ t.offset.natAbs / 60 / 60) :
    t.MarshalText
      = Except.error (lit "Time.MarshalText: " ++ lit "timezone hour outside of range [0,23]") := by
  have h0 : t.offset ≠ 0 := by
    intro h
    rw [h] at hh
    simp at hh
  have htext := appendFormatRFC3339_eq t hv hy0 hy
  obtain ⟨sign, H, hZ, hsign, hHd, hHlen2, hHfix, hHbig⟩ := appendZone_shape t.offset h0
  obtain ⟨hlast, hsame, hdig⟩ := zone_places (dateTimeText t ++ fractionText t.nanosecond) H
    (fixedDigits 2 (t.offset.natAbs / 60 % 60)) sign (fixedDigits_length 2 _)
    (fixedDigits_all 2 _) hHd
  rw [hZ] at htext
  have h4 : (appendFormatRFC3339 t []).getD 4 0 = 45 := by
    rw [htext, List.append_assoc]
    exact dateTimeText_getD_four t _
  have hcheck : (appendFormatRFC3339 t []).getLast? ≠ some 90 ∧
      ((48 ≤ ((appendFormatRFC3339 t []).getD ((appendFormatRFC3339 t []).length - 6) 0).toNat ∧
          ((appendFormatRFC3339 t []).getD ((appendFormatRFC3339 t []).length - 6) 0).toNat
            ≤ 57) ∨
        24 ≤ num2 ((appendFormatRFC3339 t []).drop
          ((appendFormatRFC3339 t []).length - 5))) := by
    rw [htext]
    refine ⟨hlast, ?_⟩
    by_cases hlt : t.offset.natAbs / 60 / 60 < 100
    · right
      have hHeq := hHfix hlt
      have hHlen : H.length = 2 := by rw [hHeq, fixedDigits_length]
      rw [(hsame hHlen).2, hHeq, num2_fixedDigits _ hlt]
      exact hh
    · left
      have hd := hdig (hHbig (by omega))
      simpa using hd
  simp only [Time.MarshalText, appendStrictRFC3339, h4, ne_eq, not_true_eq_false, if_false]
  rw [if_pos hcheck]

/-- A year outside 0 to 9999 makes `MarshalText` fail. -/
theorem MarshalText_year_error (t : Time) (hv : t.valid = true)
    (hy : ¬ (0 ≤ t.year ∧ t.year ≤ 9999)) :
    t.MarshalText
      = Except.error (lit "Time.MarshalText: " ++ lit "year outside of range [0,9999]") := by
  have h4 := year_out_of_range t hv hy
  simp only [Time.MarshalText, appendStrictRFC3339]
  rw [if_pos h4]

/-- The valid times that `MarshalText` accepts, and the text it returns. -/
theorem MarshalText_ok (t : Time) (hv : t.valid = true) (b : Bytes)
    (h : t.MarshalText = Except.ok b) :
    0 ≤ t.year ∧ t.year ≤ 9999 ∧ t.offset.natAbs / 60 / 60 < 24 ∧
      b = dateTimeText t ++ fractionText t.nanosecond ++ appendZone [] t.offset := by
  by_cases hy : 0 ≤ t.year ∧ t.year ≤ 9999
  · by_cases hh : t.offset.natAbs / 60 / 60 < 24
    · rw [MarshalText_eq t hv hy.1 hy.2 hh] at h
      exact ⟨hy.1, hy.2, hh, (Except.ok.inj h).symm⟩
    · rw [MarshalText_zone_error t hv hy.1 hy.2 (by omega)] at h
      cases h
  · rw [MarshalText_year_error t hv hy] at h
    cases h

end time

theorem fractionText_ne_nil (n : Nat) (h : n ≠ 0) : time.fractionText n ≠ [] := by
  simp [time.fractionText, h]

theorem isSecondPrecisionText_length (b : Bytes) (h : time.isSecondPrecisionText b = true) :
    b.length = 20 := by
  unfold time.isSecondPrecisionText at h
  simp only [Bool.and_eq_true, decide_eq_true_eq] at h
  exact h.1.1.1.1.1.1.1

/-- The counterexample to C13 as stated: a `DateTime` with a non-zero
nanosecond part marshals to a text with a fraction, a `DateTime` outside UTC
to a text with a numeric zone, and a `DateTime` in the year 10000 to an error;
none is of the form `YYYY-MM-DDTHH:MM:SSZ`. -/
theorem DateTime_MarshalText_counterexample :
    (subsecondDateTime.Time.valid = true ∧
      subsecondDateTime.MarshalText = Except.ok (lit "2023-06-01T23:59:59.1234Z") ∧
      time.isSecondPrecisionText (lit "2023-06-01T23:59:59.1234Z") = false) ∧
    (eastDateTime.Time.valid = true ∧
      eastDateTime.MarshalText = Except.ok (lit "2023-06-01T23:59:59+02:00") ∧
      time.isSecondPrecisionText (lit "2023-06-01T23:59:59+02:00") = false) ∧
    (farDateTime.Time.valid = true ∧
      farDateTime.MarshalText
        = Except.error (lit "Time.MarshalText: year outside of range [0,9999]")) :=
  ⟨⟨by decide, by rfl, by decide⟩, ⟨by decide, by rfl, by decide⟩, ⟨by decide, by rfl⟩⟩

/-- C13, amended: a `DateTime` at offset zero with a year from 0 to 9999
marshals to `YYYY-MM-DDTHH:MM:SS`, the fraction of its nanoseconds and `Z`;
with a zero nanosecond part that is the text `YYYY-MM-DDTHH:MM:SSZ`, with a
non-zero one the text is not of that form. -/
theorem DateTime_MarshalText_text (x : DateTime) (hv : x.Time.valid = true)
    (hy0 : 0 ≤ x.Time.year) (hy : x.Time.year ≤ 9999) (hoff : x.Time.offset = 0) :
    x.MarshalText = Except.ok
      (time.dateTimeText x.Time ++ time.fractionText x.Time.nanosecond ++ [90]) ∧
    (x.Time.nanosecond = 0 →
      x.MarshalText = Except.ok (time.dateTimeText x.Time ++ [90]) ∧
      time.isSecondPrecisionText (time.dateTimeText x.Time ++ [90]) = true) ∧
    (x.Time.nanosecond ≠ 0 →
      time.isSecondPrecisionText
        (time.dateTimeText x.Time ++ time.fractionText x.Time.nanosecond ++ [90]) = false) := by
  have h := time.MarshalText_utc x.Time hv hy0 hy hoff
  refine ⟨h, ?_, ?_⟩
  · intro hn
    refine ⟨?_, time.isSecondPrecisionText_dateTimeText x.Time⟩
    rw [DateTime.MarshalText, h, hn]
    simp [time.fractionText]
  · intro hn
    have hlen : (time.dateTimeText x.Time ++ time.fractionText x.Time.nanosecond ++ [90]).length
        ≠ 20 := by
      have h1 := List.length_pos.mpr (fractionText_ne_nil _ hn)
      simp only [List.length_append, time.dateTimeText_length, List.length_singleton]
      omega
    cases hb : time.isSecondPrecisionText
        (time.dateTimeText x.Time ++ time.fractionText x.Time.nanosecond ++ [90]) with
    | false => rfl
    | true => exact absurd (isSecondPrecisionText_length _ hb) hlen

/-- C13, amended, at the value of `Test_DateTime/MarshalText/Case1`. -/
theorem DateTime_MarshalText_text_witness :
    (testDateTime.Time.valid = true ∧ 0 ≤ testDateTime.Time.year ∧
      testDateTime.Time.year ≤ 9999 ∧ testDateTime.Time.offset = 0 ∧
      testDateTime.Time.nanosecond = 0) ∧
    testDateTime.MarshalText = Except.ok (time.dateTimeText testDateTime.Time ++ [90]) ∧
    time.dateTimeText testDateTime.Time ++ [90] = lit "2023-06-01T23:59:59Z" :=
  ⟨⟨by decide, by decide, by decide, by decide, by decide⟩,
   ((DateTime_MarshalText_text testDateTime (by decide) (by decide) (by decide) (by decide)).2.1
      (by decide)).1,
   by decide⟩

/-- C15: a `PreciseDateTime` at offset zero with a year from 0 to 9999 marshals
to `YYYY-MM-DDTHH:MM:SS`, then nothing when the nanosecond part is zero and
otherwise `.` and the nine nanosecond digits without their trailing zeros (one
to nine digits, the last not a zero), then `Z`. Nanoseconds 123400000 give
".1234", 500000000 give ".5", 1 gives ".000000001". -/
theorem PreciseDateTime_MarshalText_text (x : PreciseDateTime) (hv : x.Time.valid = true)
    (hy0 : 0 ≤ x.Time.year) (hy : x.Time.year ≤ 9999) (hoff : x.Time.offset = 0) :
    x.MarshalText = Except.ok
      (time.dateTimeText x.Time ++ time.fractionText x.Time.nanosecond ++ [90]) ∧
    (x.Time.nanosecond = 0 → time.fractionText x.Time.nanosecond = []) ∧
    (x.Time.nanosecond ≠ 0 →
      ∃ ds : Bytes, time.fractionText x.Time.nanosecond = 46 :: ds ∧
        1 ≤ ds.length ∧ ds.length ≤ 9 ∧
        ds.all (fun c => 48 ≤ c.toNat && c.toNat ≤ 57) = true ∧ ds.getLast? ≠ some 48 ∧
        ds ++ List.replicate (9 - ds.length) 48 = time.fixedDigits 9 x.Time.nanosecond) ∧
    time.fractionText 123400000 = lit ".1234" ∧ time.fractionText 500000000 = lit ".5" ∧
    time.fractionText 1 = lit ".000000001" ∧ time.fractionText 0 = [] := by
  refine ⟨time.MarshalText_utc x.Time hv hy0 hy hoff, ?_, ?_, by decide, by decide, by decide,
    by decide⟩
  · intro hn
    simp [time.fractionText, hn]
  · intro hn
    have hlt := (time.Time.valid_bounds x.Time hv).2.2.2.2.2.2.2
    obtain ⟨hne, hlen, hall, _⟩ := time.trimmed_digits x.Time.nanosecond hn hlt
    obtain ⟨j, hj⟩ := rdropWhile_eq_append_replicate 48 (time.fixedDigits 9 x.Time.nanosecond)
    refine ⟨(time.fixedDigits 9 x.Time.nanosecond).rdropWhile (fun c => c = 48), ?_, ?_, hlen,
      hall, ?_, ?_⟩
    · simp [time.fractionText, hn]
    · exact List.length_pos.mpr hne
    · intro hl
      have hnot := List.rdropWhile_last_not (fun c : UInt8 => decide (c = 48))
        (time.fixedDigits 9 x.Time.nanosecond) hne
      rw [List.getLast?_eq_getLast _ hne] at hl
      simp only [Option.some.injEq] at hl
      rw [hl] at hnot
      simp at hnot
    · have hl9 := time.fixedDigits_length 9 x.Time.nanosecond
      have hlj : ((time.fixedDigits 9 x.Time.nanosecond).rdropWhile (fun c => c = 48)).length + j
          = 9 := by
        have := congrArg List.length hj
        rw [hl9, List.length_append, List.length_replicate] at this
        omega
      have : 9 - ((time.fixedDigits 9 x.Time.nanosecond).rdropWhile (fun c => c = 48)).length
          = j := by omega
      rw [this]
      exact hj.symm

/-- C15 at the value of `Test_PreciseDateTime/MarshalText/Case1`. -/
theorem PreciseDateTime_MarshalText_text_witness :
    (testPreciseDateTime.Time.valid = true ∧ 0 ≤ testPreciseDateTime.Time.year ∧
      testPreciseDateTime.Time.year ≤ 9999 ∧ testPreciseDateTime.Time.offset = 0) ∧
    testPreciseDateTime.MarshalText = Except.ok
      (time.dateTimeText testPreciseDateTime.Time
        ++ time.fractionText testPreciseDateTime.Time.nanosecond ++ [90]) ∧
    time.dateTimeText testPreciseDateTime.Time
        ++ time.fractionText testPreciseDateTime.Time.nanosecond ++ [90]
      = lit "2023-06-01T23:59:59.1234Z" :=
  ⟨⟨by decide, by decide, by decide, by decide⟩,
   (PreciseDateTime_MarshalText_text testPreciseDateTime (by decide) (by decide) (by decide)
      (by decide)).1,
   by decide⟩

theorem Time_Equal_self (t : time.Time) : t.Equal t = true := by
  simp [time.Time.Equal]

/-- The round trip of a valid time whose zone offset is a whole number of
minutes: the text `MarshalText` returns is read back as the same time. -/
theorem Time_roundtrip (parse : Bytes → Except GoError time.Time) (t : time.Time)
    (hv : t.valid = true) (b : Bytes) (hm : t.MarshalText = Except.ok b)
    (hmin : t.offset % 60 = 0) : time.Time.UnmarshalText parse b = Except.ok t := by
  obtain ⟨hy0, hy, hh, hb⟩ := time.MarshalText_ok t hv b hm
  rw [hb]
  simp only [time.Time.UnmarshalText, time.parseRFC3339_text t hv hy0 hy hmin hh]

/-- The counterexample to C14 as stated: midnight of 2023-06-01 in a zone
thirty seconds east of UTC marshals without error to a text with the zone
`+00:00`, and that text is read back as midnight UTC, an instant thirty seconds
later. -/
theorem DateTime_roundtrip_counterexample :
    halfMinuteTime.valid = true ∧
    DateTime.MarshalText { Time := halfMinuteTime }
      = Except.ok (lit "2023-06-01T00:00:00+00:00") ∧
    PreciseDateTime.MarshalText { Time := halfMinuteTime }
      = Except.ok (lit "2023-06-01T00:00:00+00:00") ∧
    DateTime.UnmarshalText refuseAll { Time := halfMinuteTime } (lit "2023-06-01T00:00:00+00:00")
      = Except.ok { Time := time.Date 2023 6 1 0 0 0 0 } ∧
    PreciseDateTime.UnmarshalText refuseAll { Time := halfMinuteTime }
        (lit "2023-06-01T00:00:00+00:00")
      = Except.ok { Time := time.Date 2023 6 1 0 0 0 0 } ∧
    (time.Date 2023 6 1 0 0 0 0).Equal halfMinuteTime = false ∧
    (time.Date 2023 6 1 0 0 0 0).Unix = halfMinuteTime.Unix + 30 :=
  ⟨by decide, by rfl, by rfl, by rfl, by rfl, by decide, by decide⟩

/-- C14, amended: for a `DateTime` or `PreciseDateTime` whose `MarshalText`
succeeds and whose zone offset is a whole number of minutes, `UnmarshalText`
applied to the marshalled text succeeds and yields a value that holds the same
time: the same instant, with the same nanoseconds. -/
theorem DateTime_roundtrip (parse : Bytes → Except GoError time.Time) (t : time.Time)
    (hv : t.valid = true) (b : Bytes) (hm : t.MarshalText = Except.ok b)
    (hmin : t.offset % 60 = 0) (recvD : DateTime) (recvP : PreciseDateTime) :
    DateTime.MarshalText { Time := t } = Except.ok b ∧
    PreciseDateTime.MarshalText { Time := t } = Except.ok b ∧
    (∃ y : DateTime, DateTime.UnmarshalText parse recvD b = Except.ok y ∧
      y.Time.Equal t = true ∧ y.Time.nanosecond = t.nanosecond ∧ y.Time = t) ∧
    (∃ y : PreciseDateTime, PreciseDateTime.UnmarshalText parse recvP b = Except.ok y ∧
      y.Time.Equal t = true ∧ y.Time.nanosecond = t.nanosecond ∧ y.Time = t) := by
  have hr := Time_roundtrip parse t hv b hm hmin
  refine ⟨hm, hm, ⟨{ Time := t }, ?_, Time_Equal_self t, rfl, rfl⟩,
    ⟨{ Time := t }, ?_, Time_Equal_self t, rfl, rfl⟩⟩
  · simp only [DateTime.UnmarshalText, hr]
  · simp only [PreciseDateTime.UnmarshalText, hr]

/-- C14, amended, at the time of `Test_PreciseDateTime` and at a time ninety
minutes west of UTC. -/
theorem DateTime_roundtrip_witness :
    ((time.Date 2023 6 1 23 59 59 123400000).valid = true ∧
      (time.Date 2023 6 1 23 59 59 123400000).MarshalText
        = Except.ok (lit "2023-06-01T23:59:59.1234Z") ∧
      (time.Date 2023 6 1 23 59 59 123400000).offset % 60 = 0) ∧
    (∃ y : PreciseDateTime,
      PreciseDateTime.UnmarshalText refuseAll testPreciseDateTime
        (lit "2023-06-01T23:59:59.1234Z") = Except.ok y ∧
      y.Time.Equal (time.Date 2023 6 1 23 59 59 123400000) = true ∧
      y.Time.nanosecond = (time.Date 2023 6 1 23 59 59 123400000).nanosecond ∧
      y.Time = time.Date 2023 6 1 23 59 59 123400000) ∧
    (westTime.valid = true ∧
      westTime.MarshalText = Except.ok (lit "2023-06-01T00:00:00.1234-01:30") ∧
      westTime.offset % 60 = 0) ∧
    (∃ y : DateTime,
      DateTime.UnmarshalText refuseAll testDateTime (lit "2023-06-01T00:00:00.1234-01:30")
        = Except.ok y ∧
      y.Time.Equal westTime = true ∧ y.Time.nanosecond = westTime.nanosecond ∧
      y.Time = westTime) :=
  ⟨⟨by decide, by rfl, by decide⟩,
   (DateTime_roundtrip refuseAll (time.Date 2023 6 1 23 59 59 123400000) (by decide)
      (lit "2023-06-01T23:59:59.1234Z") (by rfl) (by decide) testDateTime
      testPreciseDateTime).2.2.2,
   ⟨by decide, by rfl, by decide⟩,
   (DateTime_roundtrip refuseAll westTime (by decide) (lit "2023-06-01T00:00:00.1234-01:30")
      (by rfl) (by decide) testDateTime testPreciseDateTime).2.2.1⟩

/-- The tests `Test_DateTime/UnmarshalText/Case1` and
`Test_PreciseDateTime/UnmarshalText/Case1`. -/
theorem UnmarshalText_tests :
    DateTime.UnmarshalText refuseAll { Time := time.Date 1 1 1 0 0 0 0 }
        (lit "2023-06-01T23:59:59Z")
      = Except.ok { Time := time.Date 2023 6 1 23 59 59 0 } ∧
    PreciseDateTime.UnmarshalText refuseAll { Time := time.Date 1 1 1 0 0 0 0 }
        (lit "2023-06-01T23:59:59.1234Z")
      = Except.ok { Time := time.Date 2023 6 1 23 59 59 123400000 } :=
  ⟨by rfl, by rfl⟩

/-! ## Theorems: `Mutate` -/

/-- C21: with a non-nil `input`, `Mutate` calls the engine with the caller's
mapping, or with a fresh empty one when the caller passed nil, in which the
entry "input" has been set to `input`: the handed mapping is not nil, maps
"input" to `input` whatever it held before, and agrees with the caller's
mapping on every other key. With a nil `input` the engine is called with the
caller's mapping as it is, nil included. -/
theorem Mutate_variables {Ctx M V R : Type} (json : Json) (c : Client Ctx M V R) (ctx : Ctx)
    (m : M) (input : Option V) (variables_ : GoMap V) :
    (∀ i : V, input = some i →
      ∃ handed : AList (fun _ : GoString => V),
        handed = AList.insert (lit "input") i (variables_.getD ∅) ∧
        Client.Mutate json c ctx m input variables_ =
          (enhanceError json (c.c.Mutate ctx m (some handed)).2).map
            (fun err => ((c.c.Mutate ctx m (some handed)).1, err)) ∧
        GoMap.get (some handed) (lit "input") = some i ∧
        (∀ k : GoString, k ≠ lit "input" → GoMap.get (some handed) k = variables_.get k) ∧
        (variables_ = none → GoMap.keys (some handed) = [lit "input"])) ∧
    (input = none →
      Client.Mutate json c ctx m input variables_ =
        (enhanceError json (c.c.Mutate ctx m variables_).2).map
          (fun err => ((c.c.Mutate ctx m variables_).1, err))) := by
  constructor
  · intro i hi
    refine ⟨AList.insert (lit "input") i (variables_.getD ∅), rfl, ?_, ?_, ?_, ?_⟩
    · subst hi
      cases variables_ with
      | none =>
        simp only [Client.Mutate, GoMap.set, Option.getD_none]
        cases enhanceError json (c.c.Mutate ctx m
          (some (AList.insert (lit "input") i ∅))).2 <;> rfl
      | some a =>
        simp only [Client.Mutate, GoMap.set, Option.getD_some]
        cases enhanceError json (c.c.Mutate ctx m
          (some (AList.insert (lit "input") i a))).2 <;> rfl
    · simp [GoMap.get, AList.lookup_insert]
    · intro k hk
      cases variables_ with
      | none =>
        simp only [GoMap.get, Option.getD_none, AList.lookup_insert_ne hk, AList.lookup_empty]
      | some a => simp only [GoMap.get, Option.getD_some, AList.lookup_insert_ne hk]
    · intro hv
      subst hv
      simp [GoMap.keys]
  · intro hi
    subst hi
    simp only [Client.Mutate]
    cases enhanceError json (c.c.Mutate ctx m variables_).2 <;> rfl

/-- C21 at an engine that echoes its variables: a nil mapping becomes the
mapping with the single entry "input", an existing "input" entry is
overwritten while "first" is kept, and with a nil `input` a nil mapping stays
nil. -/
theorem Mutate_variables_witness :
    (Client.Mutate stdJson { c := echoEngine AnyValue } () () (some (AnyValue.bool true)) none
        = some (GoMap.ofList [(lit "input", AnyValue.bool true)], GoError.nil) ∧
      ∃ handed : AList (fun _ : GoString => AnyValue),
        handed = AList.insert (lit "input") (AnyValue.bool true)
          ((GoMap.ofList [(lit "input", AnyValue.null), (lit "first", AnyValue.bool false)]).getD ∅) ∧
        Client.Mutate stdJson { c := echoEngine AnyValue } () () (some (AnyValue.bool true))
            (GoMap.ofList [(lit "input", AnyValue.null), (lit "first", AnyValue.bool false)]) =
          (enhanceError stdJson ((echoEngine AnyValue).Mutate () () (some handed)).2).map
            (fun err => (((echoEngine AnyValue).Mutate () () (some handed)).1, err)) ∧
        GoMap.get (some handed) (lit "input") = some (AnyValue.bool true) ∧
        (∀ k : GoString, k ≠ lit "input" → GoMap.get (some handed) k
          = (GoMap.ofList [(lit "input", AnyValue.null), (lit "first", AnyValue.bool false)]).get k) ∧
        ((GoMap.ofList [(lit "input", AnyValue.null), (lit "first", AnyValue.bool false)]) = none →
          GoMap.keys (some handed) = [lit "input"])) ∧
    Client.Mutate stdJson { c := echoEngine AnyValue } () () none none
      = some (none, GoError.nil) :=
  ⟨⟨rfl,
    (Mutate_variables stdJson { c := echoEngine AnyValue } () () (some (AnyValue.bool true))
      (GoMap.ofList [(lit "input", AnyValue.null), (lit "first", AnyValue.bool false)])).1
      (AnyValue.bool true) rfl⟩,
   rfl⟩

/-- The overwritten mapping of the example, entry by entry. -/
theorem Mutate_test_overwrite :
    Client.Mutate stdJson { c := echoEngine AnyValue } () () (some (AnyValue.bool true))
        (GoMap.ofList [(lit "input", AnyValue.null), (lit "first", AnyValue.bool false)])
      = some (GoMap.ofList [(lit "input", AnyValue.bool true), (lit "first", AnyValue.bool false)],
          GoError.nil) := by
  rfl

/-- The method `Query` hands the caller's mapping to the engine as it is. -/
theorem Query_variables {Ctx M V R : Type} (json : Json) (c : Client Ctx M V R) (ctx : Ctx)
    (q : M) (variables_ : GoMap V) :
    Client.Query json c ctx q variables_ =
      (enhanceError json (c.c.Query ctx q variables_).2).map
        (fun err => ((c.c.Query ctx q variables_).1, err)) := by
  simp only [Client.Query]
  cases enhanceError json (c.c.Query ctx q variables_).2 <;> rfl

end githubv4
